import Mathlib

/-!
Verification of the manifest-intelligence and deployment-orchestration engine
of the `tauri-app` repository (`src/src-tauri/src/main.rs`) against its
natural-language specification.

The Rust source is shallowly embedded: text is modelled as `List Char`
(`String` at the API surface), `u32` as `Nat` with an explicit `2^32` bound
where parsing matters, and external subprocess invocations as oracle records
whose fields carry the (stdout, stderr, success) observations of each call.
Whitespace is modelled over the ASCII whitespace characters (the Rust code
uses Unicode `char::is_whitespace`; the two agree on all inputs appearing in
this development). Layout coordinates (`f64`) are irrelevant to every claim
treated here and are omitted from the node model.
-/

set_option maxRecDepth 8000
set_option maxHeartbeats 1000000

namespace Endfield

/-- ASCII whitespace, modelling Rust `char::is_whitespace` on the ASCII range. -/
def isWS (c : Char) : Bool :=
  c == ' ' || c == '\t' || c == '\n' || c == '\r' || c == '\x0b' || c == '\x0c'

/-- Model of Rust `str::trim_start`. -/
def trimStart (l : List Char) : List Char := l.dropWhile isWS

/-- Model of Rust `str::trim_end`. -/
def trimEnd (l : List Char) : List Char := (l.reverse.dropWhile isWS).reverse

/-- Model of Rust `str::trim`. -/
def trimC (l : List Char) : List Char := trimEnd (trimStart l)

/-- The single-quote character, written via its code point. -/
def squote : Char := Char.ofNat 39

/-- Model of Rust `str::strip_prefix`: the remainder after `p`, if `p` is a prefix. -/
def stripPrefixOpt (p l : List Char) : Option (List Char) :=
  if p.isPrefixOf l then some (l.drop p.length) else none

/-- Model of Rust `str::trim_matches(c)`: remove all occurrences of `c` from both ends. -/
def trimMatchesC (c : Char) (l : List Char) : List Char :=
  ((l.dropWhile (· == c)).reverse.dropWhile (· == c)).reverse

/-- Fuelled worker for `stripPrefixAll`; each successful strip removes at
least one character, so `l.length` fuel always suffices. -/
def stripPrefixAllGo (p : List Char) : Nat → List Char → List Char
  | 0, l => l
  | fuel + 1, l =>
    if p ≠ [] ∧ p.isPrefixOf l then stripPrefixAllGo p fuel (l.drop p.length)
    else l

/-- Model of Rust `str::trim_start_matches(p)`: repeatedly strip the prefix `p`. -/
def stripPrefixAll (p l : List Char) : List Char := stripPrefixAllGo p l.length l

/-- Quote stripping applied to extracted scalar values:
`trim().trim_matches(dquote).trim_matches(squote)` as in the Rust extractors. -/
def stripQuotes (l : List Char) : List Char :=
  trimMatchesC squote (trimMatchesC '"' (trimC l))

/-- Decimal digit to character, for digits 0–9 (the only inputs used). -/
def digitChar (d : Nat) : Char :=
  match d with
  | 0 => '0' | 1 => '1' | 2 => '2' | 3 => '3' | 4 => '4'
  | 5 => '5' | 6 => '6' | 7 => '7' | 8 => '8' | _ => '9'

/-- Reference recursion for the decimal representation (well-founded form,
used for the proofs below). -/
def natCharsR (n : Nat) : List Char :=
  if _h : n < 10 then [digitChar n]
  else natCharsR (n / 10) ++ [digitChar (n % 10)]
termination_by n
decreasing_by exact Nat.div_lt_self (by omega) (by omega)

/-- Fuelled worker for `natChars`; `n` itself always is enough fuel. -/
def natCharsGo : Nat → Nat → List Char
  | 0, n => [digitChar n]
  | fuel + 1, n =>
    if n < 10 then [digitChar n] else natCharsGo fuel (n / 10) ++ [digitChar (n % 10)]

/-- Decimal representation of a natural number, as Rust `format!("{}", n)` prints it. -/
def natChars (n : Nat) : List Char := natCharsGo n n

/-- Decimal representation as a `String`. -/
def natString (n : Nat) : String := String.mk (natChars n)

/-- Numeric value of a digit string (used to invert `natChars`). -/
def charsVal (l : List Char) : Nat :=
  l.foldl (fun a c => a * 10 + (c.toNat - 48)) 0

/-- Model of Rust `u32::from_str` on an already-trimmed string: an optional
leading `+`, then one or more ASCII digits, value below `2^32`. -/
def parseU32 (l : List Char) : Option Nat :=
  let core := if l.head? = some '+' then l.tail else l
  if core ≠ [] ∧ core.all Char.isDigit then
    let v := charsVal core
    if v < 4294967296 then some v else none
  else none

/-! ### Document splitting on the literal `"\n---"` separator

`parse_yaml_file`, `patch_replicas_in_file` and `split_rendered_manifests`
all split text with Rust `str::split("\n---")`; joining back uses
`Vec::join("\n---")`. -/

/-- The document separator `"\n---"`. -/
def sepL : List Char := ['\n', '-', '-', '-']

/-- Three dashes, the tail of the separator. -/
def threeDash : List Char := ['-', '-', '-']

/-- Prepend a character to the first piece of a piece list. -/
def consHead (c : Char) : List (List Char) → List (List Char)
  | [] => [[c]]
  | p :: ps => (c :: p) :: ps

/-- Model of Rust `str::split("\n---")`: split at every (leftmost,
non-overlapping) occurrence of the separator. -/
def splitSepR : List Char → List (List Char)
  | [] => [[]]
  | c :: cs =>
    if sepL.isPrefixOf (c :: cs) then [] :: splitSepR (cs.drop 3)
    else consHead c (splitSepR cs)
termination_by l => l.length
decreasing_by
  all_goals simp only [List.length_drop, List.length_cons]
  all_goals omega

/-- Model of Rust `Vec::join("\n---")`. -/
def joinSep : List (List Char) → List Char
  | [] => []
  | [x] => x
  | x :: y :: ys => x ++ sepL ++ joinSep (y :: ys)

/-- Structural (kernel-computable) worker for the document splitter: the
counter consumes the residual `---` characters of a just-matched separator. -/
def splitSepGo : Nat → List Char → List (List Char)
  | _, [] => [[]]
  | 0, c :: cs =>
    if sepL.isPrefixOf (c :: cs) then [] :: splitSepGo 3 cs
    else consHead c (splitSepGo 0 cs)
  | k + 1, _ :: cs => splitSepGo k cs

/-- Model of Rust `str::split("\n---")` (executable form; equal to
`splitSepR` by `splitSep_eq_R`). -/
def splitSep (s : List Char) : List (List Char) := splitSepGo 0 s

/-! ### Lines

Rust `str::lines` splits on `'\n'`, drops a final empty piece (terminator
semantics) and strips one `'\r'` from the end of each line. -/

/-- Drop one trailing carriage return, as Rust `str::lines` does per line. -/
def stripCR (l : List Char) : List Char :=
  if l.getLast? = some '\r' then l.dropLast else l

/-- Model of Rust `str::lines`. -/
def linesRust (s : List Char) : List (List Char) :=
  (if (s.splitOn '\n').getLast? = some [] then (s.splitOn '\n').dropLast
   else s.splitOn '\n').map stripCR

/-- Model of Rust `Vec::join("\n")`. -/
def joinNl : List (List Char) → List Char
  | [] => []
  | [x] => x
  | x :: y :: ys => x ++ '\n' :: joinNl (y :: ys)

/-! ### Field extractors (`extract_metadata_field`, `extract_replicas`) -/

/-- The literal `metadata:`. -/
def metadataLit : List Char := ['m','e','t','a','d','a','t','a',':']

/-- The key `name`. -/
def nameKey : List Char := ['n','a','m','e']

/-- The literal `replicas:`. -/
def replicasLit : List Char := ['r','e','p','l','i','c','a','s',':']

/-- The literal `replicas: ` written by the patcher. -/
def replicasSpaceLit : List Char := ['r','e','p','l','i','c','a','s',':',' ']

/-- Rust `line.starts_with("  ")`: the first two characters are spaces. -/
def startsTwoSpace (l : List Char) : Bool :=
  decide (l.head? = some ' ') && decide (l.tail.head? = some ' ')

/-- Rust `line.starts_with("   ")`: the first three characters are spaces. -/
def startsThreeSpace (l : List Char) : Bool :=
  startsTwoSpace l && decide (l.tail.tail.head? = some ' ')

/-- One step state of `extract_metadata_field`: the scan over the lines with
the `in_metadata` flag, returning the first nonempty value found for `key`
at exactly-two-space indentation inside the `metadata:` block. -/
def emfGo (key : List Char) : Bool → List (List Char) → Option (List Char)
  | _, [] => none
  | inMeta, l :: ls =>
    if l.head? ≠ some ' ' ∧ trimC l = metadataLit then
      emfGo key true ls
    else if ¬ inMeta then emfGo key false ls
    else if l ≠ [] ∧ l.head? ≠ some ' ' ∧ l.head? ≠ some '\t' then
      none
    else if startsTwoSpace l && !startsThreeSpace l then
      match stripPrefixOpt key (trimC l) with
      | some rest =>
        match stripPrefixOpt [':'] (trimC rest) with
        | some rest2 =>
          if stripQuotes rest2 ≠ [] then some (stripQuotes rest2)
          else emfGo key true ls
        | none => emfGo key true ls
      | none => emfGo key true ls
    else emfGo key true ls

/-- Model of `extract_metadata_field` from `main.rs`. -/
def extract_metadata_field (content key : List Char) : Option (List Char) :=
  emfGo key false (linesRust content)

/-- The value a single line contributes to `extract_replicas`. -/
def replicasLineVal (l : List Char) : Option Nat :=
  (stripPrefixOpt replicasLit (trimC l)).bind (fun r => parseU32 (trimC r))

/-- Model of `extract_replicas` from `main.rs`. -/
def extract_replicas (content : List Char) : Option Nat :=
  (linesRust content).findSome? replicasLineVal

/-! ### `patch_replicas_in_file` -/

/-- Whether a line's trimmed text starts with `replicas:`. -/
def replicasPrefixed (l : List Char) : Bool := replicasLit.isPrefixOf (trimC l)

/-- The per-line rewrite of `patch_replicas_in_file`: a line whose trimmed
text starts with `replicas:` becomes `<original indentation>replicas: <n>`;
every other line is returned unchanged. -/
def replLine (n : Nat) (l : List Char) : List Char :=
  if replicasPrefixed l then l.takeWhile isWS ++ replicasSpaceLit ++ natChars n
  else l

/-- The document rewrite of `patch_replicas_in_file`:
`doc.lines().map(...).join("\n")`. -/
def fixDoc (n : Nat) (d : List Char) : List Char :=
  joinNl ((linesRust d).map (replLine n))

/-- The match condition of `patch_replicas_in_file`: the document's
`metadata` name (defaulting to the empty string) equals the target label and
the document has a parseable `replicas:` line. -/
def matchesDoc (label d : List Char) : Bool :=
  decide ((extract_metadata_field d nameKey).getD [] = label)
    && (extract_replicas d).isSome

/-- Core of `patch_replicas_in_file` on the file's text: split into documents
on `"\n---"`, rewrite every matching document, rejoin; `none` when no
document matched. -/
def patchCore (content label : List Char) (n : Nat) : Option (List Char) :=
  if (splitSep content).any (matchesDoc label) then
    some (joinSep ((splitSep content).map
      (fun d => if matchesDoc label d then fixDoc n d else d)))
  else none

/-- Model of `patch_replicas_in_file` (the file's content is passed in
place of the read; a `some` result is the content written back). -/
def patch_replicas_in_file (filePath content label : String) (n : Nat) :
    Except String String :=
  match patchCore content.data label.data n with
  | some out => .ok (String.mk out)
  | none => .error ("\x27" ++ label ++ "\x27 with replicas not found in " ++ filePath)

/-! ### Chart descriptor dependency scan (`try_parse_helm_node`) -/

/-- The literal `dependencies:`. -/
def dependenciesLit : List Char := ['d','e','p','e','n','d','e','n','c','i','e','s',':']

/-- The literal `- name:`. -/
def depNameLit : List Char := ['-',' ','n','a','m','e',':']

/-- The literal `version:`. -/
def versionLit : List Char := ['v','e','r','s','i','o','n',':']

/-- The literal `repository:`. -/
def repositoryLit : List Char := ['r','e','p','o','s','i','t','o','r','y',':']

/-- Mutable state of the dependency scan in `try_parse_helm_node`. -/
structure DepState where
  depName : List Char
  depVersion : List Char
  depRepo : List Char
  inDeps : Bool
  depStarted : Bool
deriving Repr, DecidableEq

/-- One line of the dependency scan loop of `try_parse_helm_node`
(`t` abbreviates the line's trimmed text, bound once in the source). -/
def depStep (st : DepState) (line : List Char) : DepState :=
  if trimC line = dependenciesLit then { st with inDeps := true }
  else if st.inDeps then
    if depNameLit.isPrefixOf (trimC line) then
      { st with depName := stripQuotes (stripPrefixAll depNameLit (trimC line)),
                depStarted := true }
    else if st.depStarted ∧ versionLit.isPrefixOf (trimC line) then
      { st with depVersion := stripQuotes (stripPrefixAll versionLit (trimC line)) }
    else if st.depStarted ∧ repositoryLit.isPrefixOf (trimC line) then
      { st with depRepo := stripQuotes (stripPrefixAll repositoryLit (trimC line)) }
    else st
  else st

/-- The dependency scan of `try_parse_helm_node` over a chart descriptor's
text: the (name, version, repository) triple left in the loop's variables. -/
def parse_chart_dependencies (content : List Char) : List Char × List Char × List Char :=
  let st := (linesRust content).foldl depStep ⟨[], [], [], false, false⟩
  (st.depName, st.depVersion, st.depRepo)

/-! ### String casing, substring tests, path joining -/

/-- ASCII lowercase conversion (Rust `str::to_lowercase` restricted to ASCII). -/
def lowerChar (c : Char) : Char :=
  if 'A' ≤ c ∧ c ≤ 'Z' then Char.ofNat (c.toNat + 32) else c

/-- Lowercase a string. -/
def lowerStr (s : String) : String := String.mk (s.data.map lowerChar)

/-- ASCII uppercase conversion (Rust `str::to_uppercase` restricted to ASCII). -/
def upperChar (c : Char) : Char :=
  if 'a' ≤ c ∧ c ≤ 'z' then Char.ofNat (c.toNat - 32) else c

/-- Uppercase a string. -/
def upperStr (s : String) : String := String.mk (s.data.map upperChar)

/-- Rust `str::contains(pat)` for a string pattern. -/
def hasSub (hay : List Char) (pat : String) : Bool := decide (pat.data <:+: hay)

/-- Model of `Path::join` followed by `display` (no trailing-slash handling:
none of the paths used carry one). -/
def pathJoin (a b : String) : String := a ++ "/" ++ b

/-- The last `/`-separated component of a path, modelling `Path::file_name`. -/
def lastComponent (p : String) : String := String.mk ((p.data.splitOn '/').getLastD [])

/-- Model of `chart_name_to_type_id` from `main.rs`. -/
def chart_name_to_type_id (chart : String) : String :=
  let c := (lowerStr chart).data
  if hasSub c "nginx" || hasSub c "traefik" || hasSub c "ingress" then "gateway"
  else if hasSub c "redis" then "cache"
  else if hasSub c "postgres" || hasSub c "mysql" || hasSub c "mongo" || hasSub c "mariadb" then "database"
  else if hasSub c "kafka" || hasSub c "rabbitmq" || hasSub c "nats" || hasSub c "redpanda" then "queue"
  else if hasSub c "prometheus" || hasSub c "grafana" || hasSub c "loki" || hasSub c "kube-prometheus" then "monitoring"
  else if hasSub c "cert-manager" || hasSub c "vault" || hasSub c "external-secrets" then "infra"
  else "service"

/-! ### Graph node model

`x`, `y`, `group_x`, `group_y` (`f64` layout coordinates, opaque to the
engine and irrelevant to every claim) are omitted. -/

/-- Model of `HelmNodeMeta` from `main.rs`. -/
structure HelmNodeMeta where
  release_name : String
  «namespace» : String
  chart_name : String
  chart_version : String
  repo : String
  values_path : String
  rendered_dir : String
deriving Repr, DecidableEq

/-- Model of `YamlNode` from `main.rs` (layout coordinates omitted). -/
structure YamlNode where
  id : String
  label : String
  kind : String
  image : String
  type_id : String
  «namespace» : String
  file_path : String
  replicas : Option Nat
  source : String
  helm : Option HelmNodeMeta
deriving Repr, DecidableEq

/-- The namespace computation of `try_parse_helm_node`: when the sibling
`namespace.yaml` exists its content is read (an unreadable file yields the
empty string via `unwrap_or_default`), the metadata `name` is extracted and
defaults to `"infra"`; when the file is absent the namespace is synthesized
as `infra-<release-name>`. -/
def helm_node_namespace (nsExists : Bool) (nsContent : Option String)
    (releaseName : String) : String :=
  if nsExists then
    match extract_metadata_field (nsContent.getD "").data nameKey with
    | some v => String.mk v
    | none => "infra"
  else "infra-" ++ releaseName

/-- Model of `try_parse_helm_node`. File-system reads are passed as
arguments: whether `helm/Chart.yaml` exists and its content (`none` models a
failed read, which aborts via `.ok()?`), whether `namespace.yaml` exists and
its content (`none` models a failed read, absorbed by `unwrap_or_default`). -/
def try_parse_helm_node (componentDir : String) (chartExists : Bool)
    (chartContent : Option String) (nsExists : Bool) (nsContent : Option String) :
    Option YamlNode :=
  if !chartExists then none
  else
    match chartContent with
    | none => none
    | some cc =>
      let dep := parse_chart_dependencies cc.data
      if dep.1 = [] then none
      else
        let releaseName := lastComponent componentDir
        let ns := helm_node_namespace nsExists nsContent releaseName
        some { id := "helm-" ++ releaseName, label := releaseName, kind := "HelmRelease",
               image := "helm:" ++ String.mk dep.1 ++ "/" ++ String.mk dep.2.1,
               type_id := chart_name_to_type_id (String.mk dep.1),
               «namespace» := ns,
               file_path := pathJoin (pathJoin componentDir "helm") "Chart.yaml",
               replicas := none, source := "helm",
               helm := some { release_name := releaseName, «namespace» := ns,
                              chart_name := String.mk dep.1,
                              chart_version := String.mk dep.2.1,
                              repo := String.mk dep.2.2,
                              values_path := pathJoin (pathJoin componentDir "helm") "values.yaml",
                              rendered_dir := pathJoin componentDir "rendered" } }

/-! ### Deduplication pass of `scan_yaml_files` -/

/-- The workload-kind list used by the deduplication key choice. -/
def workloadKindsDedup : List String :=
  ["Deployment", "StatefulSet", "DaemonSet", "ReplicaSet", "Job", "CronJob", "Pod"]

/-- The deduplication key: `label::namespace` for workload kinds,
`kind::label::namespace` otherwise. -/
def dedupKey (n : YamlNode) : String :=
  if workloadKindsDedup.contains n.kind then n.label ++ "::" ++ n.«namespace»
  else n.kind ++ "::" ++ n.label ++ "::" ++ n.«namespace»

/-- The priority function of `scan_yaml_files` (lower wins). -/
def nodePriority (kind source : String) : Nat :=
  if source = "helm" then 0
  else if kind = "StatefulSet" then 1
  else if kind = "Deployment" then 2
  else if kind = "DaemonSet" then 3
  else if kind = "ReplicaSet" then 4
  else if kind = "Job" then 5
  else if kind = "CronJob" then 6
  else if kind = "Pod" then 7
  else 8

/-- Association-list model of the `seen: HashMap<String, usize>` map. -/
def lookupIdx : List (String × Nat) → String → Option Nat
  | [], _ => none
  | (k, i) :: rest, key => if k = key then some i else lookupIdx rest key

/-- The deduplication fold of `scan_yaml_files`. The `getD` default is never
reached: every index stored in `seen` is a valid index of `acc`. -/
def dedupGo : List YamlNode → List (String × Nat) → List YamlNode → List YamlNode
  | [], _, acc => acc
  | n :: rest, seen, acc =>
    match lookupIdx seen (dedupKey n) with
    | some i =>
      let existing := acc.getD i n
      if nodePriority n.kind n.source < nodePriority existing.kind existing.source then
        dedupGo rest seen (acc.set i n)
      else dedupGo rest seen acc
    | none => dedupGo rest (seen ++ [(dedupKey n, acc.length)]) (acc ++ [n])

/-- The identifier rewrite after deduplication: append, to each surviving
node's id, a dash and its sequential index (`enumerate` in the source). -/
def renameFrom (k : Nat) : List YamlNode → List YamlNode
  | [] => []
  | nd :: rest => { nd with id := nd.id ++ "-" ++ natString k } :: renameFrom (k + 1) rest

/-- The deduplication pass of `scan_yaml_files` applied to the collected
node list: resolve collisions by priority, then rewrite identifiers. -/
def scan_dedup (nodes : List YamlNode) : List YamlNode :=
  renameFrom 0 (dedupGo nodes [] [])

/-! ### Manifest generators (`generate_deployment_yaml`, `generate_statefulset_yaml`,
`generate_secret_yaml`, `is_stateful_image`) -/

/-- Model of `EnvVar` from `main.rs`. -/
structure EnvVar where
  key : String
  value : String
deriving Repr, DecidableEq

/-- Model of `FieldConfig` from `main.rs`. -/
structure FieldConfig where
  id : String
  label : String
  «namespace» : String
  image : String
  replicas : Nat
  port : Nat
  env : List EnvVar
  project_path : String
deriving Repr, DecidableEq

/-- The sensitive-key markers of `generate_secret_yaml` / `generate_statefulset_yaml`. -/
def secretKeys : List String := ["PASSWORD", "SECRET", "KEY", "TOKEN", "PASS"]

/-- An environment entry is sensitive when its uppercased key contains one of
the markers. -/
def isSensitive (e : EnvVar) : Bool :=
  secretKeys.any (fun k => hasSub (upperStr e.key).data k)

/-- Whether any entry of an environment list is sensitive
(`has_secret` in `generate_statefulset_yaml`). -/
def hasSensitiveEnv (env : List EnvVar) : Bool := env.any isSensitive

/-- One environment entry as rendered by `generate_deployment_yaml`:
always a literal `value:`. -/
def deployEnvEntry (e : EnvVar) : String :=
  "            - name: " ++ e.key ++ "\n              value: \"" ++ e.value ++ "\"\n"

/-- The `env:` block of `generate_deployment_yaml`. -/
def deployEnvBlock (env : List EnvVar) : String :=
  if env.isEmpty then ""
  else "          env:\n" ++ String.join (env.map deployEnvEntry) ++ "\n"

/-- One environment entry as rendered by `generate_statefulset_yaml`: a
`secretKeyRef` for a sensitive entry when a secret exists, otherwise a
literal `value:`. -/
def ssEnvEntry (hasSecret : Bool) (secretName : String) (e : EnvVar) : String :=
  if isSensitive e && hasSecret then
    "            - name: " ++ e.key ++ "\n              valueFrom:\n                secretKeyRef:\n                  name: " ++ secretName ++ "\n                  key: " ++ e.key ++ "\n"
  else
    "            - name: " ++ e.key ++ "\n              value: \"" ++ e.value ++ "\"\n"

/-- The `env:` block of `generate_statefulset_yaml` for a unit named `id`. -/
def ssEnvBlock (id : String) (env : List EnvVar) : String :=
  if env.isEmpty then ""
  else "          env:\n"
    ++ String.join (env.map (ssEnvEntry (hasSensitiveEnv env) (id ++ "-secret"))) ++ "\n"

/-- Model of `generate_deployment_yaml`. -/
def generate_deployment_yaml (cfg : FieldConfig) : String :=
  "apiVersion: apps/v1\nkind: Deployment\nmetadata:\n  name: " ++ cfg.id
  ++ "\n  namespace: " ++ cfg.«namespace»
  ++ "\n  labels:\n    app: " ++ cfg.id
  ++ "\n    managed-by: endfield\nspec:\n  replicas: " ++ natString cfg.replicas
  ++ "\n  selector:\n    matchLabels:\n      app: " ++ cfg.id
  ++ "\n  template:\n    metadata:\n      labels:\n        app: " ++ cfg.id
  ++ "\n    spec:\n      containers:\n        - name: " ++ cfg.id
  ++ "\n          image: " ++ cfg.image
  ++ "\n          ports:\n            - containerPort: " ++ natString cfg.port ++ "\n"
  ++ deployEnvBlock cfg.env
  ++ "          resources:\n            requests:\n              cpu: \"100m\"\n              memory: \"128Mi\"\n            limits:\n              cpu: \"500m\"\n              memory: \"512Mi\"\n"

/-- Model of `generate_statefulset_yaml`. -/
def generate_statefulset_yaml (cfg : FieldConfig) : String :=
  "apiVersion: apps/v1\nkind: StatefulSet\nmetadata:\n  name: " ++ cfg.id
  ++ "\n  namespace: " ++ cfg.«namespace»
  ++ "\n  labels:\n    app: " ++ cfg.id
  ++ "\n    managed-by: endfield\nspec:\n  serviceName: " ++ cfg.id
  ++ "\n  replicas: " ++ natString cfg.replicas
  ++ "\n  selector:\n    matchLabels:\n      app: " ++ cfg.id
  ++ "\n  template:\n    metadata:\n      labels:\n        app: " ++ cfg.id
  ++ "\n    spec:\n      containers:\n        - name: " ++ cfg.id
  ++ "\n          image: " ++ cfg.image
  ++ "\n          ports:\n            - containerPort: " ++ natString cfg.port ++ "\n"
  ++ ssEnvBlock cfg.id cfg.env
  ++ "          resources:\n            requests:\n              cpu: \"100m\"\n              memory: \"128Mi\"\n            limits:\n              cpu: \"500m\"\n              memory: \"512Mi\"\n          volumeMounts:\n            - name: data\n              mountPath: /var/lib/" ++ cfg.id
  ++ "\n  volumeClaimTemplates:\n    - metadata:\n        name: data\n      spec:\n        accessModes: [\"ReadWriteOnce\"]\n        resources:\n          requests:\n            storage: 10Gi\n"

/-- Escape double quotes as `generate_secret_yaml` does
(`value.replace(dquote, backslash-dquote)`). -/
def escQuote (s : String) : String :=
  String.mk ((s.data.map (fun c => if c = '"' then ['\\', '"'] else [c])).flatten)

/-- Model of `generate_secret_yaml`: `none` when no entry is sensitive. -/
def generate_secret_yaml (cfg : FieldConfig) : Option String :=
  let sensitive := cfg.env.filter isSensitive
  if sensitive.isEmpty then none
  else
    let data := String.join (sensitive.map (fun e =>
      "  " ++ e.key ++ ": \"" ++ escQuote e.value ++ "\"\n"))
    some ("apiVersion: v1\nkind: Secret\nmetadata:\n  name: " ++ cfg.id
      ++ "-secret\n  namespace: " ++ cfg.«namespace»
      ++ "\n  labels:\n    app: " ++ cfg.id
      ++ "\n    managed-by: endfield\ntype: Opaque\nstringData:\n" ++ data)

/-- Model of `is_stateful_image`. -/
def is_stateful_image (image : String) : Bool :=
  let img := (lowerStr image).data
  let img := (img.splitOn ':').headD []
  let img := (img.splitOn '/').getLastD []
  hasSub img "postgres" || hasSub img "mysql" || hasSub img "mongo"
    || hasSub img "mariadb" || hasSub img "redis" || hasSub img "kafka"
    || hasSub img "redpanda" || hasSub img "cassandra" || hasSub img "clickhouse"
    || hasSub img "rabbitmq" || hasSub img "nats" || hasSub img "elasticsearch"

/-! ### Deploy orchestration (`deploy_resource_inner`) and diff (`diff_resource`)

External subprocesses are modelled by an oracle record carrying each call's
observed result; the functions mirror the Rust control flow over them. -/

/-- Model of `DeployResult` from `main.rs`. -/
structure DeployResult where
  resource_id : String
  «namespace» : String
  source : String
  stdout : String
  stderr : String
  success : Bool
  commands_run : List String
deriving Repr, DecidableEq

/-- Model of `DiffResult` from `main.rs`. -/
structure DiffResult where
  resource_id : String
  diff : String
  has_changes : Bool
  error : Option String
deriving Repr, DecidableEq

/-- Observed results of the external calls `deploy_resource_inner` can make.
`ensureNamespace` is the result of `ensure_namespace` (`Ok(created)` or the
error text); the repo-add and repo-update results are discarded by the code
and therefore not modelled; `template`'s output only feeds the rendered
directory on disk, not the returned `DeployResult`. -/
structure DeployOracle where
  ensureNamespace : Except String Bool
  depUpdate : Except String String
  template : Except String String
  install : String × String × Bool
  applyRaw : String × String × Bool
deriving Repr

/-- Model of `deploy_resource_inner`. -/
def deploy_resource_inner (o : DeployOracle) (resource_id source resource_dir ns : String)
    (helm_release helm_repo_name helm_repo_url values_file : Option String) : DeployResult :=
  match o.ensureNamespace with
  | .error e =>
    { resource_id, «namespace» := ns, source, stdout := "", stderr := e,
      success := false, commands_run := [] }
  | .ok _ =>
    let nsCmd := "kubectl get namespace " ++ ns ++ " || kubectl create namespace " ++ ns
    if source = "helm" then
      let helm_dir := pathJoin resource_dir "helm"
      let release := helm_release.getD resource_id
      let values_path := values_file.getD (pathJoin helm_dir "values.yaml")
      let repoCmds :=
        match helm_repo_name, helm_repo_url with
        | some rn, some ru => ["helm repo add " ++ rn ++ " " ++ ru, "helm repo update"]
        | _, _ => []
      let cmds2 := nsCmd :: repoCmds ++ ["helm dependency update " ++ helm_dir]
      match o.depUpdate with
      | .error e =>
        { resource_id, «namespace» := ns, source, stdout := "",
          stderr := "helm dependency update failed: " ++ e,
          success := false, commands_run := cmds2 }
      | .ok _ =>
        let cmds3 := cmds2 ++ ["helm template " ++ release ++ " . --namespace " ++ ns
          ++ " --values " ++ values_path ++ " --include-crds"]
        let cmds4 := cmds3 ++ ["helm upgrade --install " ++ release ++ " . --namespace "
          ++ ns ++ " --create-namespace --values " ++ values_path ++ " --atomic=false"]
        { resource_id, «namespace» := ns, source, stdout := o.install.1,
          stderr := o.install.2.1, success := o.install.2.2, commands_run := cmds4 }
    else
      { resource_id, «namespace» := ns, source, stdout := o.applyRaw.1,
        stderr := o.applyRaw.2.1, success := o.applyRaw.2.2,
        commands_run := [nsCmd, "kubectl apply -f " ++ resource_dir ++ " --recursive"] }

/-- Observed results of the external calls `diff_resource` can make. -/
structure DiffOracle where
  helmDiff : String × String × Bool
  renderedDirExists : Bool
  kubectlDiffRendered : String × String × Bool
  kubectlDiffRaw : String × String × Bool
deriving Repr

/-- Model of `diff_resource`. -/
def diff_resource (o : DiffOracle) (resource_id source : String) : DiffResult :=
  if source = "helm" then
    let stdout := o.helmDiff.1
    let stderr := o.helmDiff.2.1
    let success := o.helmDiff.2.2
    if success || !(decide (stdout = "")) then
      { resource_id, diff := stdout, has_changes := true, error := none }
    else if o.renderedDirExists then
      let dOut := o.kubectlDiffRendered.1
      let dErr := o.kubectlDiffRendered.2.1
      { resource_id, has_changes := !(decide (dOut = "")),
        diff := if dOut = "" then dErr else dOut,
        error := if stderr = "" then none else some stderr }
    else
      { resource_id, diff := "", has_changes := false,
        error := some ("helm diff failed and no rendered/ dir: " ++ stderr) }
  else
    let stdout := o.kubectlDiffRaw.1
    let stderr := o.kubectlDiffRaw.2.1
    let has_changes := !(decide (stdout = ""))
    { resource_id, diff := stdout, has_changes,
      error := if !has_changes && !(decide (stderr = "")) then some stderr else none }

/-! ### Rendered-output splitter (`split_rendered_manifests`) -/

/-- The literal `kind:`. -/
def kindLit : List Char := ['k','i','n','d',':']

/-- The literal `name:`. -/
def nameColonLit : List Char := ['n','a','m','e',':']

/-- The default document name `resource`. -/
def resourceLit : List Char := ['r','e','s','o','u','r','c','e']

/-- The fixed kind-precedence table of `split_rendered_manifests`. -/
def kind_order (kind : String) : Nat :=
  if kind = "Namespace" then 0
  else if kind = "ServiceAccount" then 1
  else if kind = "ClusterRole" then 2
  else if kind = "ClusterRoleBinding" then 3
  else if kind = "Role" then 4
  else if kind = "RoleBinding" then 5
  else if kind = "ConfigMap" then 6
  else if kind = "Secret" then 7
  else if kind = "PersistentVolumeClaim" then 8
  else if kind = "Service" then 9
  else if kind = "Deployment" then 10
  else if kind = "StatefulSet" then 11
  else if kind = "DaemonSet" then 12
  else if kind = "Job" then 13
  else if kind = "CronJob" then 14
  else if kind = "Ingress" then 15
  else if kind = "IngressClass" then 16
  else if kind = "CustomResourceDefinition" then 17
  else 50

/-- A line that is blank or a comment after trimming. -/
def commentOrBlank (l : List Char) : Bool :=
  decide (trimC l = []) || decide ((trimC l).head? = some '#')

/-- Kind extraction in `split_rendered_manifests`: the first line whose
trim-start begins with `kind:` and which does not start with a space; the
text between the first and second `:` of that line, trimmed; default
`Unknown`. -/
def extractKindTop (d : List Char) : String :=
  match (linesRust d).find? (fun l =>
      kindLit.isPrefixOf (trimStart l) && !(l.head? == some ' ')) with
  | some l =>
    match (l.splitOn ':').get? 1 with
    | some s => String.mk (trimC s)
    | none => "Unknown"
  | none => "Unknown"

/-- Name extraction in `split_rendered_manifests`: like the metadata
extractor, but the first `name:`-prefixed two-space line wins even when its
value is empty, and the default is `resource`. -/
def srmName : List (List Char) → Bool → List Char
  | [], _ => resourceLit
  | l :: ls, inMeta =>
    if trimC l = metadataLit ∧ l.head? ≠ some ' ' then srmName ls true
    else if inMeta then
      if l ≠ [] ∧ l.head? ≠ some ' ' ∧ l.head? ≠ some '\t' then resourceLit
      else if startsTwoSpace l && !startsThreeSpace l then
        match stripPrefixOpt nameColonLit (trimC l) with
        | some rest => trimMatchesC squote (trimMatchesC '"' (trimC rest))
        | none => srmName ls true
      else srmName ls true
    else srmName ls false

/-- Sanitize a name: slashes then dots replaced with hyphens. -/
def sanitizeName (l : List Char) : List Char :=
  (l.map (fun c => if c = '/' then '-' else c)).map (fun c => if c = '.' then '-' else c)

/-- The `.yaml` extension. -/
def yamlExt : List Char := ['.','y','a','m','l']

/-- One document's sort entry `(rank, filename, content)`; `none` for empty
or comment-only documents. -/
def docEntry (doc : List Char) : Option (Nat × List Char × List Char) :=
  let d := trimC doc
  if d = [] then none
  else if (linesRust d).all commentOrBlank then none
  else
    let kind := extractKindTop d
    let name := srmName (linesRust d) false
    some (kind_order kind, (lowerStr kind).data ++ '-' :: sanitizeName name ++ yamlExt,
      d ++ ['\n'])

/-- Strict lexicographic order on character lists (Rust `String` ordering;
UTF-8 byte order and code-point order agree). -/
def lexLtC : List Char → List Char → Bool
  | [], [] => false
  | [], _ :: _ => true
  | _ :: _, [] => false
  | a :: as1, b :: bs => if a = b then lexLtC as1 bs else decide (a < b)

/-- Non-strict order on `(rank, filename)` sort keys. -/
def entryLe (a b : Nat × List Char × List Char) : Bool :=
  decide (a.1 < b.1) || (decide (a.1 = b.1) && !(lexLtC b.2.1 a.2.1))

/-- Stable insertion: the new entry is placed after every entry whose key is
less than or equal to its own, which reproduces Rust's stable `sort_by_key`. -/
def insEntry (x : Nat × List Char × List Char) :
    List (Nat × List Char × List Char) → List (Nat × List Char × List Char)
  | [] => [x]
  | y :: ys => if entryLe y x then y :: insEntry x ys else x :: y :: ys

/-- Stable insertion sort by `(rank, filename)`. -/
def sortEntries (l : List (Nat × List Char × List Char)) :
    List (Nat × List Char × List Char) :=
  l.foldl (fun acc x => insEntry x acc) []

/-- Two-digit zero-padded sequence number (`format!("{:02}", i)`). -/
def pad2 (i : Nat) : List Char :=
  if i < 10 then '0' :: natChars i else natChars i

/-- Prefix each entry's filename with its final sequence number. -/
def numberFrom (i : Nat) : List (Nat × List Char × List Char) → List (List Char × List Char)
  | [] => []
  | (_, nm, content) :: rest => (pad2 i ++ '-' :: nm, content) :: numberFrom (i + 1) rest

/-- Model of `split_rendered_manifests`. -/
def split_rendered_manifests (raw : List Char) : List (List Char × List Char) :=
  numberFrom 0 (sortEntries ((splitSep raw).filterMap docEntry))

/-! ### Concrete inputs used by the claim theorems -/

/-- A raw Deployment node `api` in namespace `ns` (dedup scenario). -/
def nodeDep : YamlNode :=
  { id := "api-deployment-0", label := "api", kind := "Deployment", image := "",
    type_id := "service", «namespace» := "ns", file_path := "apps/api/deployment.yaml",
    replicas := some 1, source := "raw", helm := none }

/-- A raw StatefulSet node `api` in namespace `ns` (dedup scenario). -/
def nodeSts : YamlNode := { nodeDep with id := "api-statefulset-0", kind := "StatefulSet" }

/-- A HelmRelease node `api` in namespace `ns` (dedup scenario). -/
def nodeRel : YamlNode :=
  { nodeDep with
    id := "helm-api",
    kind := "HelmRelease",
    source := "helm",
    helm := some { release_name := "api", «namespace» := "ns", chart_name := "api",
                   chart_version := "1", repo := "", values_path := "",
                   rendered_dir := "" } }

/-- The kind/source signature of a node list. -/
def kindSig (l : List YamlNode) : List (String × String) :=
  l.map (fun n => (n.kind, n.source))

/-- A chart descriptor declaring two dependencies. -/
def chartTwoDeps : String :=
  "apiVersion: v2\nname: x\ndependencies:\n  - name: alpha\n    version: 1.0.0\n    repository: https://a\n  - name: beta\n    version: 2.0.0\n    repository: https://b\n"

/-- A trailing chart-descriptor fragment appending one dependency entry. -/
def depTailBlock : List Char :=
  "\ndependencies:\n  - name: beta\n    version: 2.0.0\n    repository: https://b".data

/-- A field configuration with one sensitive environment entry and a
non-stateful image. -/
def cfgSensitive : FieldConfig :=
  { id := "app", label := "app", «namespace» := "ns", image := "myorg/api:1.2",
    replicas := 1, port := 80, env := [⟨"DB_PASSWORD", "x"⟩], project_path := "/p" }

/-- The same configuration with a different sensitive value. -/
def cfgSensitiveY : FieldConfig := { cfgSensitive with env := [⟨"DB_PASSWORD", "y"⟩] }

/-- Oracle: the helm diff extension reports success with empty output. -/
def c4Oracle : DiffOracle :=
  { helmDiff := ("", "", true), renderedDirExists := false,
    kubectlDiffRendered := ("", "", false), kubectlDiffRaw := ("", "", false) }

/-- Oracle: the ensure-namespace step fails. -/
def c5Oracle : DeployOracle :=
  { ensureNamespace := .error "connection refused", depUpdate := .ok "",
    template := .ok "", install := ("", "", true), applyRaw := ("", "", true) }

/-- Rendered output: a Service document followed by a Namespace document. -/
def c6RawA : String :=
  "kind: Service\nmetadata:\n  name: web\n---\nkind: Namespace\nmetadata:\n  name: prod"

/-- Rendered output: the same two documents in the opposite order. -/
def c6RawB : String :=
  "kind: Namespace\nmetadata:\n  name: prod\n---\nkind: Service\nmetadata:\n  name: web"

/-- The four lines of the appended dependency block. -/
def depL1 : List Char := "dependencies:".data

/-- Second appended line: the dependency name. -/
def depL2 : List Char := "  - name: beta".data

/-- Third appended line: the dependency version. -/
def depL3 : List Char := "    version: 2.0.0".data

/-- Fourth appended line: the dependency repository. -/
def depL4 : List Char := "    repository: https://b".data

/-- Remap only the sensitive values of an environment list. -/
def remapSensitive (g : EnvVar → String) (env : List EnvVar) : List EnvVar :=
  env.map (fun e => if isSensitive e then { e with value := g e } else e)

/-- The suffix of a string after its last dash. -/
def afterLastDash (l : List Char) : List Char :=
  (l.reverse.takeWhile (fun c => decide (c ≠ '-'))).reverse

/-- Equality of `Except String String` results is decidable (needed to
evaluate the patcher on concrete inputs). -/
instance instDecEqExceptString : DecidableEq (Except String String) := fun a b =>
  match a, b with
  | .ok x, .ok y => if h : x = y then isTrue (by rw [h]) else isFalse (by simp [h])
  | .error x, .error y => if h : x = y then isTrue (by rw [h]) else isFalse (by simp [h])
  | .ok _, .error _ => isFalse (by simp)
  | .error _, .ok _ => isFalse (by simp)

/-- A file whose matched document holds two `replicas:`-prefixed lines: a
parseable one and an indented one carrying a comment. -/
def c8Content : String := "metadata:\n  name: api\nreplicas: 3\n  replicas: 4 # inner"

/-! ## Theorems -/

theorem natCharsGo_eq_R (fuel n : Nat) (h : n ≤ fuel) : natCharsGo fuel n = natCharsR n := by
  induction fuel generalizing n with
  | zero =>
    have h0 : n = 0 := by omega
    subst h0
    rw [natCharsR]
    simp [natCharsGo]
  | succ fuel ih =>
    rw [natCharsR]
    by_cases h10 : n < 10
    · rw [dif_pos h10]
      simp [natCharsGo, if_pos h10]
    · rw [dif_neg h10]
      have hfuel : n / 10 ≤ fuel := by
        have hlt : n / 10 < n := Nat.div_lt_self (by omega) (by omega)
        omega
      simp [natCharsGo, if_neg h10, ih _ hfuel]

theorem natChars_eq_R (n : Nat) : natChars n = natCharsR n :=
  natCharsGo_eq_R n n (le_refl n)

theorem natChars_ne_nil (n : Nat) : natChars n ≠ [] := by
  rw [natChars_eq_R]
  unfold natCharsR
  split <;> simp

theorem digitChar_isDigit (d : Nat) : (digitChar d).isDigit = true := by
  unfold digitChar
  split <;> decide

theorem natChars_all_digit (n : Nat) : ∀ c ∈ natChars n, c.isDigit = true := by
  rw [natChars_eq_R]
  induction n using natCharsR.induct with
  | case1 n h =>
    rw [natCharsR, dif_pos h]
    intro c hc
    simp only [List.mem_singleton] at hc
    subst hc; exact digitChar_isDigit n
  | case2 n h ih =>
    rw [natCharsR, dif_neg h]
    intro c hc
    rcases List.mem_append.mp hc with h1 | h1
    · exact ih c h1
    · simp only [List.mem_singleton] at h1
      subst h1; exact digitChar_isDigit _

theorem digitChar_toNat (d : Nat) (hd : d < 10) : (digitChar d).toNat - 48 = d := by
  interval_cases d <;> decide

theorem charsVal_append_digit (l : List Char) (c : Char) :
    charsVal (l ++ [c]) = charsVal l * 10 + (c.toNat - 48) := by
  simp [charsVal, List.foldl_append]

theorem charsVal_natChars (n : Nat) : charsVal (natChars n) = n := by
  rw [natChars_eq_R]
  induction n using natCharsR.induct with
  | case1 n h =>
    rw [natCharsR, dif_pos h]
    simp [charsVal, digitChar_toNat n h]
  | case2 n h ih =>
    rw [natCharsR, dif_neg h]
    rw [charsVal_append_digit, ih, digitChar_toNat _ (Nat.mod_lt _ (by omega))]
    omega

theorem natChars_injective {m n : Nat} (h : natChars m = natChars n) : m = n := by
  have := charsVal_natChars m
  rw [h, charsVal_natChars] at this
  omega

theorem natChars_head_digit (n : Nat) :
    ∃ c t, natChars n = c :: t ∧ c.isDigit = true := by
  rcases hx : natChars n with _ | ⟨c, t⟩
  · exact absurd hx (natChars_ne_nil n)
  · exact ⟨c, t, rfl, natChars_all_digit n c (by rw [hx]; exact List.mem_cons_self c t)⟩

theorem parseU32_natChars (n : Nat) (hn : n < 4294967296) :
    parseU32 (natChars n) = some n := by
  obtain ⟨c, t, hct, hcd⟩ := natChars_head_digit n
  have hne : c ≠ '+' := by
    intro h; subst h; exact absurd hcd (by decide)
  unfold parseU32
  rw [hct]
  simp only [List.head?_cons]
  have : ¬ (some c = some '+') := by simpa using hne
  rw [if_neg this]
  have hall : (c :: t).all Char.isDigit = true := by
    rw [← hct]
    rw [List.all_eq_true]
    exact natChars_all_digit n
  rw [if_pos ⟨by simp, hall⟩, ← hct, charsVal_natChars, if_pos hn]

theorem splitSepR_ne_nil (s : List Char) : splitSepR s ≠ [] := by
  induction s using splitSepR.induct with
  | case1 => simp [splitSepR]
  | case2 c cs h ih => rw [splitSepR, if_pos h]; simp
  | case3 c cs h ih =>
    rw [splitSepR, if_neg h]
    rcases hx : splitSepR cs with _ | ⟨p, ps⟩
    · exact absurd hx ih.elim
    · simp [consHead]

theorem consHead_ne_nil (c : Char) (xs : List (List Char)) : consHead c xs ≠ [] := by
  cases xs <;> simp [consHead]

theorem joinSep_cons (x : List Char) (xs : List (List Char)) (h : xs ≠ []) :
    joinSep (x :: xs) = x ++ sepL ++ joinSep xs := by
  cases xs with
  | nil => exact absurd rfl h
  | cons y ys => rfl

theorem joinSep_consHead (c : Char) (xs : List (List Char)) (h : xs ≠ []) :
    joinSep (consHead c xs) = c :: joinSep xs := by
  cases xs with
  | nil => exact absurd rfl h
  | cons p ps =>
    cases ps with
    | nil => rfl
    | cons q qs =>
      show (c :: p) ++ sepL ++ joinSep (q :: qs) = c :: (p ++ sepL ++ joinSep (q :: qs))
      simp

theorem splitSepR_head_prefix (s : List Char) :
    ∃ p ps, splitSepR s = p :: ps ∧ p <+: s := by
  induction s using splitSepR.induct with
  | case1 =>
    refine ⟨[], [], ?_, List.nil_prefix⟩
    rw [splitSepR]
  | case2 c cs h ih =>
    rw [splitSepR, if_pos h]
    exact ⟨[], _, rfl, List.nil_prefix⟩
  | case3 c cs h ih =>
    obtain ⟨p, ps, hps, hpre⟩ := ih
    rw [splitSepR, if_neg h, hps]
    exact ⟨c :: p, ps, rfl, List.cons_prefix_cons.mpr ⟨rfl, hpre⟩⟩

theorem joinSep_splitSepR (s : List Char) : joinSep (splitSepR s) = s := by
  induction s using splitSepR.induct with
  | case1 => rw [splitSepR]; rfl
  | case2 c cs h ih =>
    rw [splitSepR, if_pos h]
    rw [joinSep_cons _ _ (splitSepR_ne_nil _), ih]
    obtain ⟨t, ht⟩ := List.isPrefixOf_iff_prefix.mp h
    simp only [sepL] at ht
    obtain ⟨rfl, hcs⟩ : c = '\n' ∧ '-' :: '-' :: '-' :: t = cs := by
      have := ht
      simp only [List.cons_append, List.nil_append] at this
      exact ⟨(List.cons.injEq _ _ _ _ ▸ this).1.symm,
             (List.cons.injEq _ _ _ _ ▸ this).2⟩
    subst hcs
    simp [sepL]
  | case3 c cs h ih =>
    rw [splitSepR, if_neg h, joinSep_consHead _ _ (splitSepR_ne_nil _), ih]

theorem mem_joinSep {a : Char} {x : List Char} {xs : List (List Char)}
    (hx : x ∈ xs) (ha : a ∈ x) : a ∈ joinSep xs := by
  induction xs with
  | nil => cases hx
  | cons y ys ih =>
    cases ys with
    | nil =>
      simp only [List.mem_singleton] at hx
      subst hx; exact ha
    | cons z zs =>
      rw [joinSep_cons _ _ (by simp)]
      rcases List.mem_cons.mp hx with rfl | hmem
      · simp [ha]
      · simp [ih hmem]

theorem mem_of_mem_splitSepR {a : Char} {p s : List Char}
    (hp : p ∈ splitSepR s) (ha : a ∈ p) : a ∈ s := by
  rw [← joinSep_splitSepR s]
  exact mem_joinSep hp ha

theorem splitSepR_no_sep (s : List Char) : ∀ p ∈ splitSepR s, ¬ sepL <:+: p := by
  induction s using splitSepR.induct with
  | case1 =>
    intro p hp
    simp only [splitSepR, List.mem_singleton] at hp
    subst hp
    intro hinf
    have := hinf.length_le
    simp [sepL] at this
  | case2 c cs h ih =>
    intro p hp
    rw [splitSepR, if_pos h] at hp
    rcases List.mem_cons.mp hp with rfl | hmem
    · intro hinf
      have := hinf.length_le
      simp [sepL] at this
    · exact ih p hmem
  | case3 c cs h ih =>
    intro p hp
    rw [splitSepR, if_neg h] at hp
    obtain ⟨q, qs, hqs, hqpre⟩ := splitSepR_head_prefix cs
    rw [hqs] at hp
    simp only [consHead, List.mem_cons] at hp
    rcases hp with rfl | hmem
    · rintro ⟨u, v, huv⟩
      cases u with
      | nil =>
        simp only [List.nil_append] at huv
        have hpre : sepL <+: c :: q := ⟨v, huv⟩
        have : sepL <+: c :: cs :=
          hpre.trans (List.cons_prefix_cons.mpr ⟨rfl, hqpre⟩)
        exact h (List.isPrefixOf_iff_prefix.mpr this)
      | cons a u2 =>
        have huv2 : a :: (u2 ++ sepL ++ v) = c :: q := by
          simpa using huv
        have : sepL <:+: q := ⟨u2, v, by
          have := (List.cons.injEq _ _ _ _ ▸ huv2).2
          simpa using this⟩
        exact ih q (hqs ▸ List.mem_cons_self q qs) this
    · exact ih p (hqs ▸ List.mem_cons.mpr (Or.inr hmem))

theorem splitSepR_append (x t : List Char) (hx : ¬ sepL <:+: x) :
    splitSepR (x ++ sepL ++ t) = x :: splitSepR t := by
  induction x with
  | nil =>
    have hpre : sepL.isPrefixOf (sepL ++ t) = true :=
      List.isPrefixOf_iff_prefix.mpr (List.prefix_append _ _)
    simp only [List.nil_append]
    show splitSepR ('\n' :: ('-' :: '-' :: '-' :: t)) = [] :: splitSepR t
    rw [splitSepR]
    rw [if_pos (by simpa [sepL] using hpre)]
    simp
  | cons c x2 ih =>
    have hx2 : ¬ sepL <:+: x2 := fun hi => hx (hi.trans (List.infix_cons (List.infix_refl x2)))
    have hcond : ¬ (sepL.isPrefixOf (c :: (x2 ++ sepL ++ t)) = true) := by
      intro hpre
      obtain ⟨r, hr⟩ := List.isPrefixOf_iff_prefix.mp hpre
      rcases x2 with _ | ⟨a, _ | ⟨b, _ | ⟨d, x3⟩⟩⟩
      · simp [sepL] at hr
      · simp [sepL] at hr
      · simp [sepL] at hr
      · simp only [sepL, List.cons_append, List.nil_append, List.cons.injEq] at hr
        obtain ⟨hc, ha, hb, hd, hrr⟩ := hr
        exact hx ⟨[], x3, by
          simp only [sepL, List.nil_append, List.cons_append, List.cons.injEq]
          exact ⟨hc, ha, hb, hd, trivial⟩⟩
    rw [show (c :: x2) ++ sepL ++ t = c :: (x2 ++ sepL ++ t) by simp]
    rw [splitSepR, if_neg hcond, ih hx2]
    rfl

theorem splitSepR_single (x : List Char) (hx : ¬ sepL <:+: x) : splitSepR x = [x] := by
  induction x with
  | nil => rw [splitSepR]
  | cons c cs ih =>
    have hcs : ¬ sepL <:+: cs := fun hi => hx (hi.trans (List.infix_cons (List.infix_refl cs)))
    have hcond : ¬ (sepL.isPrefixOf (c :: cs) = true) := by
      intro hpre
      exact hx (List.isPrefixOf_iff_prefix.mp hpre).isInfix
    rw [splitSepR, if_neg hcond, ih hcs]
    rfl

theorem splitSepR_join (xs : List (List Char)) (hxs : xs ≠ [])
    (hno : ∀ p ∈ xs, ¬ sepL <:+: p) : splitSepR (joinSep xs) = xs := by
  induction xs with
  | nil => exact absurd rfl hxs
  | cons x ys ih =>
    cases ys with
    | nil => exact splitSepR_single x (hno x (List.mem_singleton_self x))
    | cons y zs =>
      rw [joinSep_cons _ _ (by simp), splitSepR_append _ _ (hno x (List.mem_cons_self _ _)),
        ih (by simp) (fun p hp => hno p (List.mem_cons_of_mem _ hp))]

theorem splitSep_eq_R (s : List Char) : splitSep s = splitSepR s := by
  show splitSepGo 0 s = splitSepR s
  induction s using splitSepR.induct with
  | case1 => rw [splitSepR]; rfl
  | case2 c cs h ih =>
    obtain ⟨t, ht⟩ := List.isPrefixOf_iff_prefix.mp h
    have hcs : cs = '-' :: '-' :: '-' :: t := by
      simp only [sepL, List.cons_append, List.nil_append, List.cons.injEq] at ht
      exact ht.2.symm
    rw [splitSepR, if_pos h]
    show (if sepL.isPrefixOf (c :: cs) then [] :: splitSepGo 3 cs
          else consHead c (splitSepGo 0 cs)) = [] :: splitSepR (cs.drop 3)
    rw [if_pos h]
    subst hcs
    show [] :: splitSepGo 0 t = [] :: splitSepR t
    have ih2 : splitSepGo 0 t = splitSepR t := by simpa using ih
    rw [ih2]
  | case3 c cs h ih =>
    rw [splitSepR, if_neg h]
    show (if sepL.isPrefixOf (c :: cs) then [] :: splitSepGo 3 cs
          else consHead c (splitSepGo 0 cs)) = consHead c (splitSepR cs)
    rw [if_neg h, ih]

theorem splitSep_ne_nil (s : List Char) : splitSep s ≠ [] := by
  rw [splitSep_eq_R]; exact splitSepR_ne_nil s

theorem joinSep_splitSep (s : List Char) : joinSep (splitSep s) = s := by
  rw [splitSep_eq_R]; exact joinSep_splitSepR s

theorem mem_of_mem_splitSep {a : Char} {p s : List Char}
    (hp : p ∈ splitSep s) (ha : a ∈ p) : a ∈ s :=
  mem_of_mem_splitSepR (splitSep_eq_R s ▸ hp) ha

theorem splitSep_no_sep (s : List Char) : ∀ p ∈ splitSep s, ¬ sepL <:+: p := by
  rw [splitSep_eq_R]; exact splitSepR_no_sep s

theorem splitSep_join (xs : List (List Char)) (hxs : xs ≠ [])
    (hno : ∀ p ∈ xs, ¬ sepL <:+: p) : splitSep (joinSep xs) = xs := by
  rw [splitSep_eq_R]; exact splitSepR_join xs hxs hno

/-! ### Claim C1 -/

/-- C1 counterexample: for the input sequence
[Deployment `api`/`ns` raw, StatefulSet `api`/`ns` raw, HelmRelease `api`/`ns` release]
the deduplication pass of `scan_yaml_files` returns TWO nodes, not one:
the release node is keyed by `kind::label::namespace` (HelmRelease is not in
the workload-kind list), so it does not collide with the raw workload nodes. -/
theorem c1_counterexample :
    (scan_dedup [nodeDep, nodeSts, nodeRel]).length = 2 ∧
    kindSig (scan_dedup [nodeDep, nodeSts, nodeRel])
      = [("StatefulSet", "raw"), ("HelmRelease", "helm")] := by
  decide

/-- C1 (amended): origin=`release` nodes are compared with the
`kind::label::namespace` key, so a release node never collides with raw
workload nodes of the same label/namespace; for the scenario's three nodes,
in every input order, the result is exactly two nodes — the StatefulSet
(winning the raw-workload collision by priority) and the HelmRelease. -/
theorem c1_theorem :
    kindSig (scan_dedup [nodeDep, nodeSts, nodeRel])
      = [("StatefulSet", "raw"), ("HelmRelease", "helm")] ∧
    kindSig (scan_dedup [nodeDep, nodeRel, nodeSts])
      = [("StatefulSet", "raw"), ("HelmRelease", "helm")] ∧
    kindSig (scan_dedup [nodeSts, nodeDep, nodeRel])
      = [("StatefulSet", "raw"), ("HelmRelease", "helm")] ∧
    kindSig (scan_dedup [nodeSts, nodeRel, nodeDep])
      = [("StatefulSet", "raw"), ("HelmRelease", "helm")] ∧
    kindSig (scan_dedup [nodeRel, nodeDep, nodeSts])
      = [("HelmRelease", "helm"), ("StatefulSet", "raw")] ∧
    kindSig (scan_dedup [nodeRel, nodeSts, nodeDep])
      = [("HelmRelease", "helm"), ("StatefulSet", "raw")] := by
  decide

/-! ### Claim C2 -/

/-- Splitting on a separator character distributes over an occurrence of
that character: everything before it splits independently of everything
after it. -/
theorem splitOnP_sep_append (p : Char → Bool) (s : Char) (hs : p s = true)
    (x y : List Char) :
    (x ++ s :: y).splitOnP p = x.splitOnP p ++ y.splitOnP p := by
  induction x with
  | nil => simp [List.splitOnP_cons, hs]
  | cons a x2 ih =>
    rw [List.cons_append, List.splitOnP_cons, List.splitOnP_cons]
    by_cases h : p a
    · rw [if_pos h, if_pos h, ih]
      rfl
    · rw [if_neg h, if_neg h, ih]
      rcases hx2 : x2.splitOnP p with _ | ⟨q, qs⟩
      · exact absurd hx2 (List.splitOnP_ne_nil _ _)
      · simp [List.modifyHead]

/-- `List.splitOn` version of the previous lemma. -/
theorem splitOn_char_append (c : Char) (x y : List Char) :
    (x ++ c :: y).splitOn c = x.splitOn c ++ y.splitOn c := by
  show (x ++ c :: y).splitOnP (· == c) = x.splitOnP (· == c) ++ y.splitOnP (· == c)
  exact splitOnP_sep_append _ c (by simp) x y

theorem c2_step1 (s : DepState) : depStep s depL1 = { s with inDeps := true } := by
  unfold depStep
  rw [show trimC depL1 = dependenciesLit from by decide]
  simp

theorem c2_step2 (s : DepState) (h : s.inDeps = true) :
    depStep s depL2 = { s with depName := "beta".data, depStarted := true } := by
  unfold depStep
  rw [show trimC depL2 = "- name: beta".data from by decide]
  rw [if_neg (by decide), if_pos h, if_pos (by decide)]
  rw [show stripQuotes (stripPrefixAll depNameLit ("- name: beta".data)) = "beta".data
    from by decide]

theorem c2_step3 (s : DepState) (h : s.inDeps = true) (h2 : s.depStarted = true) :
    depStep s depL3 = { s with depVersion := "2.0.0".data } := by
  unfold depStep
  rw [show trimC depL3 = "version: 2.0.0".data from by decide]
  rw [if_neg (by decide), if_pos h, if_neg (by decide), if_pos ⟨h2, by decide⟩]
  rw [show stripQuotes (stripPrefixAll versionLit ("version: 2.0.0".data)) = "2.0.0".data
    from by decide]

theorem c2_step4 (s : DepState) (h : s.inDeps = true) (h2 : s.depStarted = true) :
    depStep s depL4 = { s with depRepo := "https://b".data } := by
  unfold depStep
  rw [show trimC depL4 = "repository: https://b".data from by decide]
  rw [if_neg (by decide), if_pos h, if_neg (by decide)]
  rw [if_neg (by rintro ⟨h3, h4⟩; revert h4; decide), if_pos ⟨h2, by decide⟩]
  rw [show stripQuotes (stripPrefixAll repositoryLit ("repository: https://b".data))
    = "https://b".data from by decide]

/-- C2 counterexample: for a chart descriptor declaring two dependencies
(`alpha` then `beta`), the scan captures the SECOND entry — each `- name:`
line overwrites the record — and the resulting node's release metadata holds
`beta`, not the first entry `alpha`. -/
theorem c2_counterexample :
    parse_chart_dependencies chartTwoDeps.data
      = ("beta".data, "2.0.0".data, "https://b".data) ∧
    parse_chart_dependencies chartTwoDeps.data
      ≠ ("alpha".data, "1.0.0".data, "https://a".data) ∧
    ((try_parse_helm_node "/p/infra/mychart" true (some chartTwoDeps) false none).map
      (fun n => n.helm.map (fun h => (h.chart_name, h.chart_version, h.repo))))
      = some (some ("beta", "2.0.0", "https://b")) := by
  refine ⟨by decide, by decide, ?_⟩
  decide

/-- C2 (amended): the LAST dependency entry wins. Whatever chart text
precedes it — in particular any number of earlier dependency entries — a
final appended dependency entry (`- name: beta`, `version: 2.0.0`,
`repository: https://b`, here after a fresh `dependencies:` line) is the one
the scan captures. -/
theorem c2_theorem (pre : List Char) :
    parse_chart_dependencies (pre ++ '\n' :: (depL1 ++ '\n' :: (depL2 ++ '\n' :: (depL3 ++ '\n' :: depL4))))
      = ("beta".data, "2.0.0".data, "https://b".data) := by
  unfold parse_chart_dependencies
  have hsplit : (pre ++ '\n' :: (depL1 ++ '\n' :: (depL2 ++ '\n' :: (depL3 ++ '\n' :: depL4)))).splitOn '\n'
      = pre.splitOn '\n' ++ [depL1, depL2, depL3, depL4] := by
    rw [splitOn_char_append, splitOn_char_append, splitOn_char_append, splitOn_char_append]
    rw [show depL1.splitOn '\n' = [depL1] from by decide,
        show depL2.splitOn '\n' = [depL2] from by decide,
        show depL3.splitOn '\n' = [depL3] from by decide,
        show depL4.splitOn '\n' = [depL4] from by decide]
    simp
  have hlines : linesRust (pre ++ '\n' :: (depL1 ++ '\n' :: (depL2 ++ '\n' :: (depL3 ++ '\n' :: depL4))))
      = (pre.splitOn '\n').map stripCR ++ [depL1, depL2, depL3, depL4] := by
    unfold linesRust
    rw [hsplit]
    rw [List.getLast?_append_of_ne_nil _ (by simp : [depL1, depL2, depL3, depL4] ≠ [])]
    rw [if_neg (by decide)]
    rw [List.map_append]
    rw [show ([depL1, depL2, depL3, depL4]).map stripCR = [depL1, depL2, depL3, depL4]
      from by decide]
  rw [hlines, List.foldl_append]
  simp only [List.foldl_cons, List.foldl_nil]
  rw [c2_step1, c2_step2 _ rfl, c2_step3 _ rfl rfl, c2_step4 _ rfl rfl]

/-! ### Claim C3 -/

theorem isSensitive_key (k v v2 : String) :
    isSensitive ⟨k, v⟩ = isSensitive ⟨k, v2⟩ := rfl

theorem hasSensitiveEnv_remap (g : EnvVar → String) (env : List EnvVar) :
    hasSensitiveEnv (remapSensitive g env) = hasSensitiveEnv env := by
  unfold hasSensitiveEnv remapSensitive
  induction env with
  | nil => rfl
  | cons e rest ih =>
    simp only [List.map_cons, List.any_cons, ih]
    by_cases h : isSensitive e = true
    · rw [if_pos h]
      rw [show isSensitive { e with value := g e } = isSensitive e from rfl]
    · rw [if_neg h]

theorem ssEnvBlock_remap (id : String) (g : EnvVar → String) (env : List EnvVar) :
    ssEnvBlock id (remapSensitive g env) = ssEnvBlock id env := by
  unfold ssEnvBlock
  rw [hasSensitiveEnv_remap]
  rw [show (remapSensitive g env).isEmpty = env.isEmpty by
    unfold remapSensitive; cases env <;> simp]
  rcases h : env.isEmpty with _ | _
  · simp only [Bool.false_eq_true, if_false]
    congr 2
    unfold remapSensitive
    rw [List.map_map]
    congr 1
    apply List.map_congr_left
    intro e he
    by_cases hse : isSensitive e = true
    · have hs : hasSensitiveEnv env = true := by
        unfold hasSensitiveEnv
        exact List.any_eq_true.mpr ⟨e, he, hse⟩
      show ssEnvEntry (hasSensitiveEnv env) (id ++ "-secret")
        (if isSensitive e then { e with value := g e } else e) = _
      rw [if_pos hse, hs]
      show ssEnvEntry true _ { e with value := g e } = ssEnvEntry true _ e
      unfold ssEnvEntry
      rw [show isSensitive { e with value := g e } = isSensitive e from rfl, hse]
      simp
    · show ssEnvEntry _ _ (if isSensitive e then { e with value := g e } else e) = _
      rw [if_neg hse]
  · simp

/-- C3 counterexample: the spec `cfgSensitive` has a sensitive entry
(`DB_PASSWORD`) and a non-stateful image, so the generated workload is a
Deployment — and that Deployment embeds the sensitive literal value: the
entry renders as a literal `value:` line, and the whole manifest changes
when only the sensitive value changes. -/
theorem c3_counterexample :
    isSensitive ⟨"DB_PASSWORD", "x"⟩ = true ∧
    is_stateful_image cfgSensitive.image = false ∧
    generate_deployment_yaml cfgSensitive ≠ generate_deployment_yaml cfgSensitiveY ∧
    deployEnvEntry ⟨"DB_PASSWORD", "x"⟩
      = "            - name: DB_PASSWORD\n              value: \"x\"\n" := by
  exact ⟨by decide, by decide, by decide, by decide⟩

/-- C3 (amended): only the StatefulSet generator treats sensitive entries
indirectly. The StatefulSet manifest is invariant under changing sensitive
values (sensitive entries render as `secretKeyRef` blocks mentioning only
the key and the secret name); non-sensitive entries render as literal
values; the Deployment generator renders every entry, sensitive or not, as a
literal value. -/
theorem c3_theorem :
    (∀ (cfg : FieldConfig) (g : EnvVar → String),
      generate_statefulset_yaml { cfg with env := remapSensitive g cfg.env }
        = generate_statefulset_yaml cfg) ∧
    (∀ (b : Bool) (sn : String) (e : EnvVar), isSensitive e = false →
      ssEnvEntry b sn e
        = "            - name: " ++ e.key ++ "\n              value: \"" ++ e.value ++ "\"\n") ∧
    (∀ (sn : String) (e : EnvVar), isSensitive e = true →
      ssEnvEntry true sn e
        = "            - name: " ++ e.key
          ++ "\n              valueFrom:\n                secretKeyRef:\n                  name: "
          ++ sn ++ "\n                  key: " ++ e.key ++ "\n") ∧
    (∀ e : EnvVar, deployEnvEntry e
      = "            - name: " ++ e.key ++ "\n              value: \"" ++ e.value ++ "\"\n") := by
  refine ⟨?_, ?_, ?_, ?_⟩
  · intro cfg g
    unfold generate_statefulset_yaml
    rw [show ({ cfg with env := remapSensitive g cfg.env } : FieldConfig).env
      = remapSensitive g cfg.env from rfl]
    rw [ssEnvBlock_remap]
  · intro b sn e h
    unfold ssEnvEntry
    rw [h]
    simp
  · intro sn e h
    unfold ssEnvEntry
    rw [h]
    simp
  · intro e
    rfl

/-- C3 witness: the amended theorem applied at concrete inputs — a sensitive
entry renders as a `secretKeyRef` block, a non-sensitive one as a literal. -/
theorem c3_witness :
    ssEnvEntry true "app-secret" ⟨"API_TOKEN", "t"⟩
      = "            - name: " ++ "API_TOKEN"
        ++ "\n              valueFrom:\n                secretKeyRef:\n                  name: "
        ++ "app-secret" ++ "\n                  key: " ++ "API_TOKEN" ++ "\n" ∧
    ssEnvEntry true "app-secret" ⟨"APP_MODE", "dev"⟩
      = "            - name: " ++ "APP_MODE" ++ "\n              value: \"" ++ "dev" ++ "\"\n" :=
  ⟨c3_theorem.2.2.1 "app-secret" ⟨"API_TOKEN", "t"⟩ (by decide),
   c3_theorem.2.1 true "app-secret" ⟨"APP_MODE", "dev"⟩ (by decide)⟩

/-! ### Claim C4 -/

/-- C4 counterexample: on the chart-managed path, when the helm diff
extension reports success with EMPTY output (the in-sync case), the code
returns `has_changes = true` with an empty diff — contradicting "an empty
output with no error text means in sync". -/
theorem c4_counterexample :
    (diff_resource c4Oracle "r" "helm").has_changes = true ∧
    (diff_resource c4Oracle "r" "helm").diff = "" ∧
    c4Oracle.helmDiff.1 = "" ∧ c4Oracle.helmDiff.2.1 = "" := by
  exact ⟨by decide, by decide, by decide, by decide⟩

/-- C4 (amended): for raw-file origin, `has_changes` is exactly "the diff
output is non-empty"; for chart-managed origin `has_changes` holds iff the
helm diff reported success OR produced output, or else (when the fallback
runs because a rendered directory exists) the kubectl diff produced output —
so a successful empty helm diff is still reported as `has_changes`. -/
theorem c4_theorem (o : DiffOracle) (rid source : String) :
    (diff_resource o rid source).has_changes =
      (if source = "helm" then
        (o.helmDiff.2.2 || !(decide (o.helmDiff.1 = "")))
          || (o.renderedDirExists && !(decide (o.kubectlDiffRendered.1 = "")))
      else !(decide (o.kubectlDiffRaw.1 = ""))) := by
  unfold diff_resource
  by_cases hs : source = "helm"
  · simp only [if_pos hs]
    by_cases h1 : o.helmDiff.2.2 <;>
      by_cases h2 : o.helmDiff.1 = "" <;>
        by_cases h3 : o.renderedDirExists <;>
          simp [h1, h2, h3]
  · simp [if_neg hs]

/-! ### Claim C5 -/

/-- C5 counterexample: when the ensure-namespace step fails, the returned
command log is EMPTY — the namespace get/create commands that were issued
are not recorded. -/
theorem c5_counterexample :
    (deploy_resource_inner c5Oracle "r" "helm" "/p/infra/r" "ns" none none none none).commands_run
      = [] ∧
    (deploy_resource_inner c5Oracle "r" "helm" "/p/infra/r" "ns" none none none none).success
      = false ∧
    (deploy_resource_inner c5Oracle "r" "helm" "/p/infra/r" "ns" none none none none).stderr
      = "connection refused" := by
  exact ⟨by decide, by decide, by decide⟩

/-- C5 (amended): on ensure-namespace failure the orchestrator returns
immediately with the failure text and an EMPTY command log; on success the
log starts with a single combined get-or-create namespace line, and when the
dependency-update step fails on the chart path the log stops right after the
dependency-update line (no template or install command recorded). -/
theorem c5_theorem :
    (∀ (o : DeployOracle) (rid source dir ns : String)
        (hrel hrn hru vf : Option String) (e : String),
      o.ensureNamespace = .error e →
      deploy_resource_inner o rid source dir ns hrel hrn hru vf
        = { resource_id := rid, «namespace» := ns, source := source, stdout := "",
            stderr := e, success := false, commands_run := [] }) ∧
    (∀ (o : DeployOracle) (rid source dir ns : String)
        (hrel hrn hru vf : Option String) (c : Bool),
      o.ensureNamespace = .ok c →
      (deploy_resource_inner o rid source dir ns hrel hrn hru vf).commands_run.head?
        = some ("kubectl get namespace " ++ ns ++ " || kubectl create namespace " ++ ns)) ∧
    (∀ (o : DeployOracle) (rid dir ns : String)
        (hrel hrn hru vf : Option String) (c : Bool) (e : String),
      o.ensureNamespace = .ok c → o.depUpdate = .error e →
      (deploy_resource_inner o rid "helm" dir ns hrel hrn hru vf).commands_run
        = ("kubectl get namespace " ++ ns ++ " || kubectl create namespace " ++ ns)
          :: ((match hrn, hru with
               | some rn, some ru => ["helm repo add " ++ rn ++ " " ++ ru, "helm repo update"]
               | _, _ => [])
              ++ ["helm dependency update " ++ pathJoin dir "helm"]) ∧
      (deploy_resource_inner o rid "helm" dir ns hrel hrn hru vf).success = false) := by
  refine ⟨?_, ?_, ?_⟩
  · intro o rid source dir ns hrel hrn hru vf e h
    unfold deploy_resource_inner
    rw [h]
  · intro o rid source dir ns hrel hrn hru vf c h
    unfold deploy_resource_inner
    rw [h]
    by_cases hs : source = "helm"
    · simp only [if_pos hs]
      rcases o.depUpdate with _ | _ <;> simp
    · simp [if_neg hs]
  · intro o rid dir ns hrel hrn hru vf c e h h2
    unfold deploy_resource_inner
    rw [h, h2]
    simp

/-- C5 witness: the amended theorem applied to the concrete failing-namespace
oracle. -/
theorem c5_witness :
    deploy_resource_inner c5Oracle "r" "helm" "/p/infra/r" "ns" none none none none
      = { resource_id := "r", «namespace» := "ns", source := "helm", stdout := "",
          stderr := "connection refused", success := false, commands_run := [] } :=
  c5_theorem.1 c5Oracle "r" "helm" "/p/infra/r" "ns" none none none none
    "connection refused" rfl

/-! ### Claim C6 -/

/-- C6: for one Service document and one Namespace document, in either input
order, the Rendered-Output Splitter produces
`[00-namespace-<name>.yaml, 01-service-<name>.yaml]` — the Namespace
document always sorts first and filenames carry the final sequence number. -/
theorem c6_theorem :
    (split_rendered_manifests c6RawA.data).map (fun p => String.mk p.1)
      = ["00-namespace-prod.yaml", "01-service-web.yaml"] ∧
    (split_rendered_manifests c6RawB.data).map (fun p => String.mk p.1)
      = ["00-namespace-prod.yaml", "01-service-web.yaml"] := by
  exact ⟨by decide, by decide⟩

/-! ### Claim C10 -/

/-- C10: when the sibling namespace file exists but no metadata name can be
extracted from its content (including the unreadable-file case, where the
content defaults to empty), the node's namespace is the literal `infra` —
not the synthesized `infra-<directory-name>` used when the file is absent. -/
theorem c10_theorem (content relName : String)
    (h : extract_metadata_field content.data nameKey = none) :
    helm_node_namespace true (some content) relName = "infra" ∧
    helm_node_namespace true none relName = "infra" ∧
    helm_node_namespace true (some content) relName ≠ "infra-" ++ relName ∧
    helm_node_namespace false none relName = "infra-" ++ relName := by
  have h1 : helm_node_namespace true (some content) relName = "infra" := by
    unfold helm_node_namespace
    rw [if_pos rfl]
    rw [show (some content).getD "" = content from rfl, h]
  refine ⟨h1, ?_, ?_, rfl⟩
  · unfold helm_node_namespace
    rw [if_pos rfl]
    rw [show (none : Option String).getD "" = "" from rfl]
    rw [show extract_metadata_field "".data nameKey = none from by decide]
  · rw [h1]
    intro heq
    have hlen := congrArg String.length heq
    rw [String.length_append] at hlen
    rw [show ("infra" : String).length = 5 from rfl,
        show ("infra-" : String).length = 6 from rfl] at hlen
    omega

/-- C10 witness: the theorem applied to a concrete namespace file whose
metadata name cannot be extracted. -/
theorem c10_witness :
    helm_node_namespace true (some "kind: Namespace\nmetadata:\n   name: prod") "pg" = "infra" ∧
    helm_node_namespace true none "pg" = "infra" ∧
    helm_node_namespace true (some "kind: Namespace\nmetadata:\n   name: prod") "pg" ≠ "infra-" ++ "pg" ∧
    helm_node_namespace false none "pg" = "infra-" ++ "pg" :=
  c10_theorem "kind: Namespace\nmetadata:\n   name: prod" "pg" (by decide)

/-! ### Claim C9 -/
theorem takeWhile_append_stop (p : Char → Bool) (u : List Char)
    (hu : ∀ a ∈ u, p a = true) (b : Char) (v : List Char) (hb : p b = false) :
    List.takeWhile p (u ++ b :: v) = u := by
  induction u with
  | nil => simp [List.takeWhile_cons, hb]
  | cons a u2 ih =>
    rw [List.cons_append, List.takeWhile_cons,
      hu a (List.mem_cons_self a u2)]
    rw [ih (fun x hx => hu x (List.mem_cons_of_mem a hx))]
    simp

theorem afterLastDash_append (x t : List Char) (ht : ∀ c ∈ t, c ≠ '-') :
    afterLastDash (x ++ '-' :: t) = t := by
  unfold afterLastDash
  have h1 : (x ++ '-' :: t).reverse = t.reverse ++ '-' :: x.reverse := by
    rw [List.reverse_append, List.reverse_cons, List.append_assoc]
    rfl
  rw [h1]
  rw [takeWhile_append_stop _ t.reverse
      (fun a ha => by simpa using ht a (List.mem_reverse.mp ha)) '-' x.reverse (by simp)]
  exact List.reverse_reverse t

theorem id_suffix_inj (a b : String) (i j : Nat)
    (h : a ++ "-" ++ natString i = b ++ "-" ++ natString j) : i = j := by
  have hd := congrArg String.data h
  rw [String.data_append, String.data_append, String.data_append, String.data_append] at hd
  have hd2 : a.data ++ '-' :: natChars i = b.data ++ '-' :: natChars j := by
    simpa using hd
  have hdigit : ∀ n : Nat, ∀ c ∈ natChars n, c ≠ '-' := by
    intro n c hc heq
    have hdig := natChars_all_digit n c hc
    rw [heq] at hdig
    exact absurd hdig (by decide)
  have h1 := afterLastDash_append a.data (natChars i) (hdigit i)
  have h2 := afterLastDash_append b.data (natChars j) (hdigit j)
  rw [hd2, h2] at h1
  exact (natChars_injective h1).symm

theorem mem_renameFrom {x : YamlNode} (m : Nat) (l : List YamlNode)
    (hx : x ∈ renameFrom m l) :
    ∃ (nd : YamlNode) (j : Nat), m ≤ j ∧ x.id = nd.id ++ "-" ++ natString j := by
  induction l generalizing m with
  | nil => cases hx
  | cons nd rest ih =>
    rw [renameFrom] at hx
    rcases List.mem_cons.mp hx with rfl | hmem
    · exact ⟨nd, m, le_refl m, rfl⟩
    · obtain ⟨nd2, j, hj, hid⟩ := ih (m + 1) hmem
      exact ⟨nd2, j, by omega, hid⟩

theorem pairwise_renameFrom (m : Nat) (l : List YamlNode) :
    List.Pairwise (fun a b => a.id ≠ b.id) (renameFrom m l) := by
  induction l generalizing m with
  | nil => exact List.Pairwise.nil
  | cons nd rest ih =>
    rw [renameFrom]
    refine List.Pairwise.cons ?_ (ih (m + 1))
    intro x hx heq
    obtain ⟨nd2, j, hj, hid⟩ := mem_renameFrom (m + 1) rest hx
    have hh : ({ nd with id := nd.id ++ "-" ++ natString m } : YamlNode).id
      = nd.id ++ "-" ++ natString m := rfl
    rw [hh, hid] at heq
    have := id_suffix_inj _ _ _ _ heq
    omega

/-- C9: after the deduplication pass rewrites every surviving node's
identifier by appending its sequential index, all identifiers in the scan
result are pairwise distinct — for EVERY input node list. The appended
suffix is a dash followed by a digit-only decimal, so the text after the
last dash recovers the index, and distinct indices give distinct ids. -/
theorem c9_theorem (nodes : List YamlNode) :
    List.Pairwise (fun a b => a.id ≠ b.id) (scan_dedup nodes) :=
  pairwise_renameFrom 0 (dedupGo nodes [] [])

/-! ### Claim C7: line-layer lemmas -/

theorem splitOnP_pieces_false (p : Char → Bool) (s : List Char) :
    ∀ x ∈ s.splitOnP p, ∀ a ∈ x, p a = false := by
  induction s with
  | nil =>
    intro x hx a ha
    simp only [List.splitOnP_nil, List.mem_singleton] at hx
    subst hx
    cases ha
  | cons c cs ih =>
    intro x hx a ha
    rw [List.splitOnP_cons] at hx
    by_cases hc : p c
    · rw [if_pos hc] at hx
      rcases List.mem_cons.mp hx with rfl | hmem
      · cases ha
      · exact ih x hmem a ha
    · rw [if_neg hc] at hx
      rcases hq : cs.splitOnP p with _ | ⟨q, qs⟩
      · exact absurd hq (List.splitOnP_ne_nil _ _)
      · rw [hq] at hx
        simp only [List.modifyHead, List.mem_cons] at hx
        rcases hx with rfl | hmem
        · rcases List.mem_cons.mp ha with rfl | ha2
          · exact Bool.eq_false_iff.mpr hc
          · exact ih q (hq ▸ List.mem_cons_self q qs) a ha2
        · exact ih x (hq ▸ List.mem_cons_of_mem q hmem) a ha

theorem mem_splitOnP_sub (p : Char → Bool) (s : List Char) :
    ∀ x ∈ s.splitOnP p, ∀ a ∈ x, a ∈ s := by
  induction s with
  | nil =>
    intro x hx a ha
    simp only [List.splitOnP_nil, List.mem_singleton] at hx
    subst hx
    cases ha
  | cons c cs ih =>
    intro x hx a ha
    rw [List.splitOnP_cons] at hx
    by_cases hc : p c
    · rw [if_pos hc] at hx
      rcases List.mem_cons.mp hx with rfl | hmem
      · cases ha
      · exact List.mem_cons_of_mem c (ih x hmem a ha)
    · rw [if_neg hc] at hx
      rcases hq : cs.splitOnP p with _ | ⟨q, qs⟩
      · exact absurd hq (List.splitOnP_ne_nil _ _)
      · rw [hq] at hx
        simp only [List.modifyHead, List.mem_cons] at hx
        rcases hx with rfl | hmem
        · rcases List.mem_cons.mp ha with rfl | ha2
          · exact List.mem_cons_self a _
          · exact List.mem_cons_of_mem c (ih q (hq ▸ List.mem_cons_self q qs) a ha2)
        · exact List.mem_cons_of_mem c (ih x (hq ▸ List.mem_cons_of_mem q hmem) a ha)

theorem noNl_lines (d : List Char) : ∀ l ∈ linesRust d, '\n' ∉ l := by
  intro l hl hnl
  unfold linesRust at hl
  obtain ⟨piece, hpiece, hstrip⟩ := List.mem_map.mp hl
  have hp2 : piece ∈ d.splitOn '\n' := by
    by_cases hcase : (d.splitOn '\n').getLast? = some []
    · rw [if_pos hcase] at hpiece
      exact (List.dropLast_sublist _).subset hpiece
    · rw [if_neg hcase] at hpiece
      exact hpiece
  have hin : '\n' ∈ piece := by
    rw [← hstrip] at hnl
    unfold stripCR at hnl
    by_cases hcr : piece.getLast? = some '\r'
    · rw [if_pos hcr] at hnl
      exact (List.dropLast_sublist _).subset hnl
    · rw [if_neg hcr] at hnl
      exact hnl
  have := splitOnP_pieces_false (· == '\n') d piece hp2 '\n' hin
  simp at this

theorem lines_sub (d : List Char) : ∀ l ∈ linesRust d, ∀ a ∈ l, a ∈ d := by
  intro l hl a ha
  unfold linesRust at hl
  obtain ⟨piece, hpiece, hstrip⟩ := List.mem_map.mp hl
  have hp2 : piece ∈ d.splitOn '\n' := by
    by_cases hcase : (d.splitOn '\n').getLast? = some []
    · rw [if_pos hcase] at hpiece
      exact (List.dropLast_sublist _).subset hpiece
    · rw [if_neg hcase] at hpiece
      exact hpiece
  have hain : a ∈ piece := by
    rw [← hstrip] at ha
    unfold stripCR at ha
    by_cases hcr : piece.getLast? = some '\r'
    · rw [if_pos hcr] at ha
      exact (List.dropLast_sublist _).subset ha
    · rw [if_neg hcr] at ha
      exact ha
  exact mem_splitOnP_sub (· == '\n') d piece hp2 a hain

theorem splitNl_join (xs : List (List Char)) (hxs : xs ≠ [])
    (hno : ∀ x ∈ xs, '\n' ∉ x) : (joinNl xs).splitOn '\n' = xs := by
  induction xs with
  | nil => exact absurd rfl hxs
  | cons x ys ih =>
    cases ys with
    | nil =>
      show x.splitOn '\n' = [x]
      exact List.splitOnP_eq_single _ _
        (fun a ha hpa => hno x (List.mem_singleton_self x) (by
          rw [show a = '\n' from by simpa using hpa] at ha
          exact ha))
    | cons y zs =>
      show (x ++ '\n' :: joinNl (y :: zs)).splitOn '\n' = x :: (y :: zs)
      rw [show (x ++ '\n' :: joinNl (y :: zs)).splitOn '\n'
          = x :: (joinNl (y :: zs)).splitOn '\n' from
        List.splitOnP_first _ x
          (fun a ha hpa => hno x (List.mem_cons_self _ _) (by
            rw [show a = '\n' from by simpa using hpa] at ha
            exact ha)) '\n' (by simp) _]
      rw [ih (by simp) (fun q hq => hno q (List.mem_cons_of_mem x hq))]

theorem stripCR_id (l : List Char) (h : l.getLast? ≠ some '\r') : stripCR l = l := by
  unfold stripCR
  rw [if_neg h]

theorem linesRust_joinNl (xs : List (List Char)) (hxs : xs ≠ [])
    (hno : ∀ x ∈ xs, '\n' ∉ x) (hlast : xs.getLast? ≠ some [])
    (hcr : ∀ x ∈ xs, x.getLast? ≠ some '\r') : linesRust (joinNl xs) = xs := by
  unfold linesRust
  rw [splitNl_join xs hxs hno]
  rw [if_neg hlast]
  rw [List.map_congr_left (fun x hx => stripCR_id x (hcr x hx))]
  exact List.map_id xs

/-! ### Claim C7: whitespace, trim and `replLine` lemmas -/

theorem isDigit_not_ws (c : Char) (h : c.isDigit = true) : isWS c = false := by
  by_contra hws
  rw [Bool.not_eq_false] at hws
  unfold isWS at hws
  simp only [Bool.or_eq_true, beq_iff_eq] at hws
  have hcase : c = ' ' ∨ c = '\t' ∨ c = '\n' ∨ c = '\r' ∨ c = '\x0b' ∨ c = '\x0c' := by
    tauto
  rcases hcase with rfl | rfl | rfl | rfl | rfl | rfl <;> exact absurd h (by decide)

theorem dropWhile_append_all (p : Char → Bool) (u v : List Char)
    (hu : ∀ a ∈ u, p a = true) : List.dropWhile p (u ++ v) = List.dropWhile p v := by
  induction u with
  | nil => rfl
  | cons a u2 ih =>
    rw [List.cons_append, List.dropWhile_cons, if_pos (hu a (List.mem_cons_self a u2))]
    exact ih (fun x hx => hu x (List.mem_cons_of_mem a hx))

theorem dropWhile_head_false (p : Char → Bool) (l : List Char) (c : Char)
    (rest : List Char) (h : l.dropWhile p = c :: rest) : p c = false := by
  induction l with
  | nil => cases h
  | cons a as ih =>
    rw [List.dropWhile_cons] at h
    by_cases hp : p a
    · exact ih (by rwa [if_pos hp] at h)
    · rw [if_neg hp] at h
      injection h with hac hrest
      rw [← hac]
      exact Bool.eq_false_iff.mpr hp

theorem trimEnd_prefix (l : List Char) : trimEnd l <+: l := by
  unfold trimEnd
  have h : (l.reverse.dropWhile isWS) <:+ l.reverse := List.dropWhile_suffix _
  have h2 := List.reverse_prefix.mpr h
  rwa [List.reverse_reverse] at h2

theorem trimEnd_noop (l : List Char)
    (h : ∀ c, l.getLast? = some c → isWS c = false) : trimEnd l = l := by
  cases hl : l.reverse with
  | nil =>
    have : l = [] := by
      have := congrArg List.reverse hl
      simpa using this
    subst this
    rfl
  | cons c cs =>
    have hc : l.getLast? = some c := by
      rw [← List.head?_reverse, hl]
      rfl
    unfold trimEnd
    rw [hl, List.dropWhile_cons, if_neg (by simp [h c hc])]
    rw [← hl, List.reverse_reverse]

theorem mem_of_getLast?_eq (l : List Char) (c : Char) (h : l.getLast? = some c) :
    c ∈ l := by
  obtain ⟨hne, heq⟩ := List.mem_getLast?_eq_getLast (show c ∈ l.getLast? from h)
  rw [heq]
  exact List.getLast_mem hne

theorem natChars_getLast_digit (n : Nat) :
    ∃ d, (natChars n).getLast? = some d ∧ d.isDigit = true := by
  have hne := natChars_ne_nil n
  rcases hx : (natChars n).getLast? with _ | d
  · rw [List.getLast?_eq_none_iff] at hx
    exact absurd hx hne
  · refine ⟨d, rfl, natChars_all_digit n d ?_⟩
    exact mem_of_getLast?_eq _ d hx

theorem replPref_decomp (l : List Char) (h : replicasPrefixed l = true) :
    ∃ t, trimC l = replicasLit ++ t := by
  obtain ⟨t, ht⟩ := List.isPrefixOf_iff_prefix.mp h
  exact ⟨t, ht.symm⟩

theorem repl_dropWhile_head (l : List Char) (h : replicasPrefixed l = true) :
    ∃ rest, l.dropWhile isWS = 'r' :: rest := by
  obtain ⟨t, ht⟩ := replPref_decomp l h
  have hpre : trimC l <+: l.dropWhile isWS := trimEnd_prefix _
  rcases hx : l.dropWhile isWS with _ | ⟨c, cs⟩
  · rw [hx] at hpre
    have h0 : trimC l = [] := List.prefix_nil.mp hpre
    rw [h0] at ht
    simp [replicasLit] at ht
  · rw [hx] at hpre
    obtain ⟨w, hw⟩ := hpre
    rw [ht] at hw
    have hc : c = 'r' := by
      have := congrArg List.head? hw
      simpa [replicasLit] using this.symm
    exact ⟨cs, by rw [hc]⟩

theorem trimC_eq_trimEnd_dropWhile (l : List Char) :
    trimC l = trimEnd (l.dropWhile isWS) := rfl

theorem replLine_eq (n : Nat) (l : List Char) (h : replicasPrefixed l = true) :
    replLine n l = l.takeWhile isWS ++ replicasSpaceLit ++ natChars n := by
  unfold replLine
  rw [if_pos h]

theorem replLine_trim (n : Nat) (l : List Char) (h : replicasPrefixed l = true) :
    trimC (replLine n l) = replicasSpaceLit ++ natChars n := by
  rw [replLine_eq n l h, trimC_eq_trimEnd_dropWhile]
  rw [List.append_assoc]
  rw [dropWhile_append_all isWS _ _ (fun a ha => List.mem_takeWhile_imp ha)]
  rw [show replicasSpaceLit ++ natChars n = 'r' :: (['e','p','l','i','c','a','s',':',' '] ++ natChars n) from by simp [replicasSpaceLit]]
  rw [List.dropWhile_cons, if_neg (by decide)]
  apply trimEnd_noop
  intro c hc
  rw [show 'r' :: (['e','p','l','i','c','a','s',':',' '] ++ natChars n)
      = ('r' :: ['e','p','l','i','c','a','s',':',' ']) ++ natChars n from by simp] at hc
  rw [List.getLast?_append_of_ne_nil _ (natChars_ne_nil n)] at hc
  exact isDigit_not_ws c (natChars_all_digit n c (mem_of_getLast?_eq _ c hc))

theorem replicasPrefixed_replLine (n : Nat) (l : List Char)
    (h : replicasPrefixed l = true) : replicasPrefixed (replLine n l) = true := by
  unfold replicasPrefixed
  rw [replLine_trim n l h]
  apply List.isPrefixOf_iff_prefix.mpr
  refine ⟨' ' :: natChars n, ?_⟩
  simp [replicasLit, replicasSpaceLit]

theorem replLine_idem (n : Nat) (l : List Char) :
    replLine n (replLine n l) = replLine n l := by
  by_cases h : replicasPrefixed l = true
  · have h2 := replicasPrefixed_replLine n l h
    rw [replLine_eq n _ h2, replLine_eq n l h]
    congr 2
    rw [List.append_assoc]
    rw [show replicasSpaceLit ++ natChars n
        = 'r' :: (['e','p','l','i','c','a','s',':',' '] ++ natChars n) from by
      simp [replicasSpaceLit]]
    exact takeWhile_append_stop isWS _ (fun a ha => List.mem_takeWhile_imp ha) 'r' _
      (by decide)
  · have h1 : replLine n l = l := by unfold replLine; rw [if_neg h]
    rw [h1, h1]

theorem replicasPrefixed_ne_nil (l : List Char) (h : replicasPrefixed l = true) :
    l ≠ [] := by
  intro he
  subst he
  exact absurd h (by decide)

theorem replLine_ne_nil (n : Nat) (l : List Char) (h : replicasPrefixed l = true) :
    replLine n l ≠ [] := by
  rw [replLine_eq n l h]
  simp [replicasSpaceLit]

theorem replLine_head (n : Nat) (l : List Char) (h : replicasPrefixed l = true) :
    (replLine n l).head? = l.head? := by
  rw [replLine_eq n l h]
  rcases hind : l.takeWhile isWS with _ | ⟨c, cs⟩
  · obtain ⟨rest, hrest⟩ := repl_dropWhile_head l h
    have hl : l = 'r' :: rest := by
      have hw := List.takeWhile_append_dropWhile isWS l
      rw [hind, hrest] at hw
      exact hw.symm
    rw [hl]
    simp [replicasSpaceLit]
  · have hw := List.takeWhile_append_dropWhile isWS l
    rw [hind] at hw
    rw [← hw]
    simp

theorem startsTwo_shape (u va vb : List Char) (a b : Char)
    (ha : isWS a = false) (hb : isWS b = false) :
    startsTwoSpace (u ++ a :: va) = startsTwoSpace (u ++ b :: vb) := by
  have ha2 : a ≠ ' ' := fun e => by rw [e] at ha; exact absurd ha (by decide)
  have hb2 : b ≠ ' ' := fun e => by rw [e] at hb; exact absurd hb (by decide)
  match u with
  | [] => simp [startsTwoSpace, ha2, hb2]
  | [c] => simp [startsTwoSpace, ha2, hb2]
  | c :: d :: u2 => simp [startsTwoSpace]

theorem startsThree_shape (u va vb : List Char) (a b : Char)
    (ha : isWS a = false) (hb : isWS b = false) :
    startsThreeSpace (u ++ a :: va) = startsThreeSpace (u ++ b :: vb) := by
  have ha2 : a ≠ ' ' := fun e => by rw [e] at ha; exact absurd ha (by decide)
  have hb2 : b ≠ ' ' := fun e => by rw [e] at hb; exact absurd hb (by decide)
  match u with
  | [] => simp [startsThreeSpace, startsTwoSpace, ha2, hb2]
  | [c] => simp [startsThreeSpace, startsTwoSpace, ha2, hb2]
  | [c, d] => simp [startsThreeSpace, startsTwoSpace, ha2, hb2]
  | c :: d :: e :: u2 => simp [startsThreeSpace, startsTwoSpace]

theorem emfGo_cons_congr (key : List Char) (b : Bool) (l : List Char)
    (ls1 ls2 : List (List Char))
    (H : ∀ b2 : Bool, emfGo key b2 ls1 = emfGo key b2 ls2) :
    emfGo key b (l :: ls1) = emfGo key b (l :: ls2) := by
  rw [emfGo, emfGo]
  by_cases c1 : (l.head? ≠ some ' ' ∧ trimC l = metadataLit)
  · rw [if_pos c1, if_pos c1]
    exact H true
  · rw [if_neg c1, if_neg c1]
    by_cases c2 : ¬ b = true
    · rw [if_pos c2, if_pos c2]
      exact H false
    · rw [if_neg c2, if_neg c2]
      by_cases c3 : (l ≠ [] ∧ l.head? ≠ some ' ' ∧ l.head? ≠ some '\t')
      · rw [if_pos c3, if_pos c3]
      · rw [if_neg c3, if_neg c3]
        by_cases c4 : (startsTwoSpace l && !startsThreeSpace l) = true
        · rw [if_pos c4, if_pos c4]
          rcases h5 : stripPrefixOpt key (trimC l) with _ | rest
          · exact H true
          · show (match stripPrefixOpt [':'] (trimC rest) with
                  | some rest2 =>
                    if stripQuotes rest2 ≠ [] then some (stripQuotes rest2)
                    else emfGo key true ls1
                  | none => emfGo key true ls1)
                = (match stripPrefixOpt [':'] (trimC rest) with
                  | some rest2 =>
                    if stripQuotes rest2 ≠ [] then some (stripQuotes rest2)
                    else emfGo key true ls2
                  | none => emfGo key true ls2)
            rcases h6 : stripPrefixOpt [':'] (trimC rest) with _ | rest2
            · exact H true
            · show (if stripQuotes rest2 ≠ [] then some (stripQuotes rest2)
                    else emfGo key true ls1)
                  = (if stripQuotes rest2 ≠ [] then some (stripQuotes rest2)
                    else emfGo key true ls2)
              by_cases c5 : stripQuotes rest2 ≠ []
              · rw [if_pos c5, if_pos c5]
              · rw [if_neg c5, if_neg c5]
                exact H true
        · rw [if_neg c4, if_neg c4]
          exact H true

theorem emfGo_cons_repl (n : Nat) (b : Bool) (l : List Char)
    (hl : replicasPrefixed l = true)
    (ls1 ls2 : List (List Char))
    (H : ∀ b2 : Bool, emfGo nameKey b2 ls1 = emfGo nameKey b2 ls2) :
    emfGo nameKey b (replLine n l :: ls1) = emfGo nameKey b (l :: ls2) := by
  obtain ⟨t, ht⟩ := replPref_decomp l hl
  have htrim : trimC (replLine n l) = replicasSpaceLit ++ natChars n := replLine_trim n l hl
  have hhead : (replLine n l).head? = l.head? := replLine_head n l hl
  have hne : l ≠ [] := replicasPrefixed_ne_nil l hl
  have hne2 : replLine n l ≠ [] := replLine_ne_nil n l hl
  have hc1a : ¬ ((replLine n l).head? ≠ some ' ' ∧ trimC (replLine n l) = metadataLit) := by
    rintro ⟨-, h2⟩
    rw [htrim] at h2
    have h3 := congrArg List.head? h2
    simp [replicasSpaceLit, metadataLit] at h3
  have hc1b : ¬ (l.head? ≠ some ' ' ∧ trimC l = metadataLit) := by
    rintro ⟨-, h2⟩
    rw [ht] at h2
    have h3 := congrArg List.head? h2
    simp [replicasLit, metadataLit] at h3
  rw [emfGo, emfGo, if_neg hc1a, if_neg hc1b]
  by_cases hb : ¬ b = true
  · rw [if_pos hb, if_pos hb]
    exact H false
  · rw [if_neg hb, if_neg hb]
    by_cases hc3 : (l ≠ [] ∧ l.head? ≠ some ' ' ∧ l.head? ≠ some '\t')
    · have hc3a : (replLine n l ≠ [] ∧ (replLine n l).head? ≠ some ' '
          ∧ (replLine n l).head? ≠ some '\t') :=
        ⟨hne2, by rw [hhead]; exact hc3.2.1, by rw [hhead]; exact hc3.2.2⟩
      rw [if_pos hc3a, if_pos hc3]
    · have hc3a : ¬ (replLine n l ≠ [] ∧ (replLine n l).head? ≠ some ' '
          ∧ (replLine n l).head? ≠ some '\t') := by
        rintro ⟨-, h2, h3⟩
        exact hc3 ⟨hne, by rwa [hhead] at h2, by rwa [hhead] at h3⟩
      rw [if_neg hc3a, if_neg hc3]
      obtain ⟨rest, hrest⟩ := repl_dropWhile_head l hl
      have hldecomp : l = l.takeWhile isWS ++ 'r' :: rest := by
        have hw := List.takeWhile_append_dropWhile isWS l
        rw [hrest] at hw
        exact hw.symm
      have hrdecomp : replLine n l
          = l.takeWhile isWS ++ 'r' :: (['e','p','l','i','c','a','s',':',' '] ++ natChars n) := by
        rw [replLine_eq n l hl, List.append_assoc]
        congr 1
      have h2eq : startsTwoSpace (replLine n l) = startsTwoSpace l := by
        rw [hrdecomp]
        conv_rhs => rw [hldecomp]
        exact startsTwo_shape _ _ _ 'r' 'r' (by decide) (by decide)
      have h3eq : startsThreeSpace (replLine n l) = startsThreeSpace l := by
        rw [hrdecomp]
        conv_rhs => rw [hldecomp]
        exact startsThree_shape _ _ _ 'r' 'r' (by decide) (by decide)
      by_cases hc4 : (startsTwoSpace l && !startsThreeSpace l) = true
      · rw [if_pos (by rw [h2eq, h3eq]; exact hc4), if_pos hc4]
        have hnone1 : stripPrefixOpt nameKey (trimC (replLine n l)) = none := by
          unfold stripPrefixOpt
          rw [htrim]
          rw [if_neg ?_]
          intro hcontra
          obtain ⟨w, hw⟩ := List.isPrefixOf_iff_prefix.mp hcontra
          have h3 := congrArg List.head? hw
          simp [nameKey, replicasSpaceLit] at h3
        have hnone2 : stripPrefixOpt nameKey (trimC l) = none := by
          unfold stripPrefixOpt
          rw [ht]
          rw [if_neg ?_]
          intro hcontra
          obtain ⟨w, hw⟩ := List.isPrefixOf_iff_prefix.mp hcontra
          have h3 := congrArg List.head? hw
          simp [nameKey, replicasLit] at h3
        rw [hnone1, hnone2]
        exact H true
      · rw [if_neg (by rw [h2eq, h3eq]; exact hc4), if_neg hc4]
        exact H true

theorem emfGo_map_repl (n : Nat) (L : List (List Char)) :
    ∀ b : Bool, emfGo nameKey b (L.map (replLine n)) = emfGo nameKey b L := by
  induction L with
  | nil =>
    intro b
    rfl
  | cons l ls ih =>
    intro b
    rw [List.map_cons]
    by_cases h : replicasPrefixed l = true
    · exact emfGo_cons_repl n b l h _ _ ih
    · rw [show replLine n l = l from by unfold replLine; rw [if_neg h]]
      exact emfGo_cons_congr nameKey b l _ _ ih

/-! ### Claim C7: joining and re-splitting lines -/

theorem joinNl_cons_of_ne_nil (x : List Char) (L : List (List Char)) (h : L ≠ []) :
    joinNl (x :: L) = x ++ '\n' :: joinNl L := by
  cases L with
  | nil => exact absurd rfl h
  | cons y ys => rfl

theorem joinNl_cons_head (c : Char) (q : List Char) (qs : List (List Char)) :
    joinNl ((c :: q) :: qs) = c :: joinNl (q :: qs) := by
  cases qs with
  | nil => rfl
  | cons r rs => rfl

theorem joinNl_splitNl (d : List Char) : joinNl (d.splitOn '\n') = d := by
  induction d with
  | nil => rfl
  | cons c cs ih =>
    rw [show (c :: cs).splitOn '\n'
        = if c == '\n' then [] :: cs.splitOn '\n'
          else (cs.splitOn '\n').modifyHead (List.cons c)
        from List.splitOnP_cons _ c cs]
    by_cases hc : (c == '\n') = true
    · rw [if_pos hc]
      rw [joinNl_cons_of_ne_nil [] (cs.splitOn '\n') (List.splitOnP_ne_nil _ _)]
      rw [List.nil_append, ih]
      rw [show c = '\n' from by simpa using hc]
    · rw [if_neg hc]
      rcases hq : cs.splitOn '\n' with _ | ⟨q, qs⟩
      · exact absurd hq (List.splitOnP_ne_nil _ _)
      · rw [List.modifyHead_cons, joinNl_cons_head, ← hq, ih]

theorem head_prefix_joinNl (x : List Char) (ys : List (List Char)) :
    x <+: joinNl (x :: ys) := by
  cases ys with
  | nil => exact List.prefix_refl x
  | cons z zs => exact List.prefix_append x _

theorem tail_infix_joinNl (xs : List (List Char)) :
    ∀ y ∈ xs.tail, ('\n' :: y) <:+: joinNl xs := by
  induction xs with
  | nil => intro y hy; cases hy
  | cons x ys ih =>
    intro y hy
    cases ys with
    | nil => cases hy
    | cons z zs =>
      rw [joinNl_cons_of_ne_nil x (z :: zs) (by simp)]
      rcases List.mem_cons.mp hy with rfl | hy2
      · exact (List.cons_prefix_cons.mpr ⟨rfl, head_prefix_joinNl y zs⟩).isInfix.trans
          (List.suffix_append x _).isInfix
      · exact (ih y hy2).trans ((List.suffix_cons '\n' (joinNl (z :: zs))).trans
          (List.suffix_append x ('\n' :: joinNl (z :: zs)))).isInfix

theorem splitNl_tail_infix (d : List Char) :
    ∀ y ∈ (d.splitOn '\n').tail, ('\n' :: y) <:+: d := by
  intro y hy
  have h := tail_infix_joinNl (d.splitOn '\n') y hy
  rwa [joinNl_splitNl] at h

theorem stripCR_pref (l : List Char) : stripCR l <+: l := by
  unfold stripCR
  by_cases h : l.getLast? = some '\r'
  · rw [if_pos h]
    exact List.dropLast_prefix l
  · rw [if_neg h]

/-! ### Claim C7: the separator cannot reappear in a rewritten document -/

theorem sep_infix_skip (x w : List Char) (hx : ('\n' : Char) ∉ x)
    (h : sepL <:+: x ++ w) : sepL <:+: w := by
  induction x with
  | nil => simpa using h
  | cons c x2 ih =>
    rw [List.cons_append] at h
    rcases List.infix_cons_iff.mp h with hpre | hinf
    · rw [show sepL = '\n' :: threeDash from rfl, List.cons_prefix_cons] at hpre
      exact absurd (show ('\n' : Char) ∈ c :: x2 from by
        rw [hpre.1]; exact List.mem_cons_self c x2) hx
    · exact ih (fun hm => hx (List.mem_cons_of_mem c hm)) hinf

theorem prefix_append_cases (p u v : List Char) (h : p <+: u ++ v) :
    p <+: u ∨ ∃ s, p = u ++ s ∧ s <+: v := by
  induction u generalizing p with
  | nil => exact Or.inr ⟨p, rfl, h⟩
  | cons c u2 ih =>
    cases p with
    | nil => exact Or.inl List.nil_prefix
    | cons a p2 =>
      rw [List.cons_append, List.cons_prefix_cons] at h
      rcases ih p2 h.2 with hl | ⟨s, hs1, hs2⟩
      · exact Or.inl (List.cons_prefix_cons.mpr ⟨h.1, hl⟩)
      · refine Or.inr ⟨s, ?_, hs2⟩
        rw [List.cons_append, h.1, hs1]

theorem dash3_not_prefix_joinNl (y : List Char) (ys : List (List Char))
    (hy : ¬ threeDash <+: y) : ¬ threeDash <+: joinNl (y :: ys) := by
  cases ys with
  | nil => exact hy
  | cons z zs =>
    intro h
    rw [joinNl_cons_of_ne_nil y (z :: zs) (by simp)] at h
    rcases prefix_append_cases threeDash y _ h with hcase | ⟨s, hs1, hs2⟩
    · exact hy hcase
    · cases s with
      | nil =>
        have hy2 : threeDash <+: y := by
          rw [hs1, List.append_nil]
        exact hy hy2
      | cons a s2 =>
        have ha : a ∈ threeDash := by
          rw [hs1]
          exact List.mem_append_right y (List.mem_cons_self a s2)
        have ha2 : a = '\n' := (List.cons_prefix_cons.mp hs2).1
        have ha3 : a = '-' := by simpa [threeDash] using ha
        rw [ha3] at ha2
        exact absurd ha2 (by decide)

theorem noSep_joinNl (ys : List (List Char)) : ∀ x : List Char,
    ('\n' : Char) ∉ x → (∀ y ∈ ys, ('\n' : Char) ∉ y) →
    (∀ y ∈ ys, ¬ threeDash <+: y) → ¬ sepL <:+: joinNl (x :: ys) := by
  induction ys with
  | nil =>
    intro x hx _ _ h
    exact hx (h.subset (by decide))
  | cons y ys2 ih =>
    intro x hx hnl hdash h
    rw [joinNl_cons_of_ne_nil x (y :: ys2) (by simp)] at h
    have h2 : sepL <:+: '\n' :: joinNl (y :: ys2) := sep_infix_skip x _ hx h
    rcases List.infix_cons_iff.mp h2 with hpre | hinf
    · rw [show sepL = '\n' :: threeDash from rfl, List.cons_prefix_cons] at hpre
      exact dash3_not_prefix_joinNl y ys2 (hdash y (List.mem_cons_self y ys2)) hpre.2
    · exact ih y (hnl y (List.mem_cons_self y ys2))
        (fun q hq => hnl q (List.mem_cons_of_mem y hq))
        (fun q hq => hdash q (List.mem_cons_of_mem y hq)) hinf

theorem mem_tail_map (f : List Char → List Char) (L : List (List Char)) :
    ∀ y ∈ (L.map f).tail, ∃ p ∈ L.tail, y = f p := by
  cases L with
  | nil => intro y hy; cases hy
  | cons a L2 =>
    intro y hy
    rw [List.map_cons] at hy
    obtain ⟨p, hp, he⟩ := List.mem_map.mp hy
    exact ⟨p, hp, he.symm⟩

theorem tail_dropLast_sub (L : List (List Char)) :
    ∀ y ∈ L.dropLast.tail, y ∈ L.tail := by
  cases L with
  | nil => intro y hy; simp at hy
  | cons a t =>
    intro y hy
    cases t with
    | nil => simp at hy
    | cons b t2 =>
      rw [List.dropLast_cons₂] at hy
      exact (List.dropLast_sublist (b :: t2)).subset hy

theorem lines_tail_pieces (d : List Char) :
    ∀ l ∈ (linesRust d).tail, ∃ p ∈ (d.splitOn '\n').tail, l = stripCR p := by
  intro l hl
  unfold linesRust at hl
  by_cases hcase : (d.splitOn '\n').getLast? = some []
  · rw [if_pos hcase] at hl
    obtain ⟨p, hp, he⟩ := mem_tail_map stripCR _ l hl
    exact ⟨p, tail_dropLast_sub _ p hp, he⟩
  · rw [if_neg hcase] at hl
    exact mem_tail_map stripCR _ l hl

theorem lines_tail_no_dash (d : List Char) (hd : ¬ sepL <:+: d) :
    ∀ l ∈ (linesRust d).tail, ¬ threeDash <+: l := by
  intro l hl hdash
  obtain ⟨p, hp, he⟩ := lines_tail_pieces d l hl
  have h1 : threeDash <+: p := by
    rw [he] at hdash
    exact hdash.trans (stripCR_pref p)
  have h2 : ('\n' :: p) <:+: d := splitNl_tail_infix d p hp
  apply hd
  have h3 : sepL <+: '\n' :: p := by
    rw [show sepL = '\n' :: threeDash from rfl]
    exact List.cons_prefix_cons.mpr ⟨rfl, h1⟩
  exact h3.isInfix.trans h2

theorem noNl_replLine (n : Nat) (l : List Char) (h : ('\n' : Char) ∉ l) :
    ('\n' : Char) ∉ replLine n l := by
  unfold replLine
  by_cases hp : replicasPrefixed l = true
  · rw [if_pos hp]
    intro hmem
    rcases List.mem_append.mp hmem with hmem2 | hmem3
    · rcases List.mem_append.mp hmem2 with hmem4 | hmem5
      · exact h ((List.takeWhile_sublist _).subset hmem4)
      · exact absurd hmem5 (by decide)
    · exact absurd (natChars_all_digit n _ hmem3) (by decide)
  · rw [if_neg hp]
    exact h

theorem tail_no_dash_replLine (n : Nat) (l : List Char) (h : ¬ threeDash <+: l) :
    ¬ threeDash <+: replLine n l := by
  by_cases hp : replicasPrefixed l = true
  · intro hcontra
    rw [replLine_eq n l hp] at hcontra
    rcases hind : l.takeWhile isWS with _ | ⟨c, cs⟩
    · rw [hind, List.nil_append] at hcontra
      rw [show replicasSpaceLit ++ natChars n
          = 'r' :: (['e','p','l','i','c','a','s',':',' '] ++ natChars n) from rfl] at hcontra
      rw [show threeDash = '-' :: ['-', '-'] from rfl, List.cons_prefix_cons] at hcontra
      exact absurd hcontra.1 (by decide)
    · rw [hind, List.cons_append, List.cons_append] at hcontra
      rw [show threeDash = '-' :: ['-', '-'] from rfl, List.cons_prefix_cons] at hcontra
      have hc : isWS c = true :=
        List.mem_takeWhile_imp (by rw [hind]; exact List.mem_cons_self c cs)
      rw [← hcontra.1] at hc
      exact absurd hc (by decide)
  · rw [show replLine n l = l from by unfold replLine; rw [if_neg hp]]
    exact h

theorem noSep_fixDoc (n : Nat) (d : List Char) (hd : ¬ sepL <:+: d) :
    ¬ sepL <:+: fixDoc n d := by
  unfold fixDoc
  rcases hli : linesRust d with _ | ⟨l0, ls⟩
  · intro h
    have h2 := List.sublist_nil.mp h.sublist
    simp [sepL] at h2
  · rw [List.map_cons]
    apply noSep_joinNl
    · exact noNl_replLine n l0 (noNl_lines d l0 (by rw [hli]; exact List.mem_cons_self l0 ls))
    · intro y hy
      obtain ⟨l, hl, he⟩ := List.mem_map.mp hy
      rw [← he]
      exact noNl_replLine n l (noNl_lines d l (by rw [hli]; exact List.mem_cons_of_mem l0 hl))
    · intro y hy
      obtain ⟨l, hl, he⟩ := List.mem_map.mp hy
      rw [← he]
      apply tail_no_dash_replLine
      apply lines_tail_no_dash d hd
      rw [hli]
      exact hl

/-! ### Claim C7: a patched document re-reads to the same lines -/

theorem replLine_eq_nil_iff (n : Nat) (l : List Char) :
    replLine n l = [] ↔ l = [] := by
  constructor
  · intro h
    by_cases hp : replicasPrefixed l = true
    · exact absurd h (replLine_ne_nil n l hp)
    · unfold replLine at h
      rwa [if_neg hp] at h
  · intro h
    subst h
    rfl

theorem linesRust_fixDoc (n : Nat) (d : List Char) (hne : linesRust d ≠ [])
    (hlast : (linesRust d).getLast? ≠ some [])
    (hcr : ('\r' : Char) ∉ d) :
    linesRust (fixDoc n d) = (linesRust d).map (replLine n) := by
  unfold fixDoc
  apply linesRust_joinNl
  · intro h
    exact hne (List.map_eq_nil_iff.mp h)
  · intro x hx
    obtain ⟨l, hl, he⟩ := List.mem_map.mp hx
    rw [← he]
    exact noNl_replLine n l (noNl_lines d l hl)
  · rw [List.getLast?_map]
    intro h
    rcases hg : (linesRust d).getLast? with _ | ll
    · rw [hg] at h
      simp at h
    · rw [hg] at h
      have h2 : replLine n ll = [] := by simpa using h
      have h3 : ll = [] := (replLine_eq_nil_iff n ll).mp h2
      rw [h3] at hg
      exact hlast hg
  · intro x hx
    obtain ⟨l, hl, he⟩ := List.mem_map.mp hx
    rw [← he]
    by_cases hp : replicasPrefixed l = true
    · rw [replLine_eq n l hp]
      rw [List.getLast?_append_of_ne_nil _ (natChars_ne_nil n)]
      obtain ⟨dg, hdg, hdig⟩ := natChars_getLast_digit n
      rw [hdg]
      intro hcontra
      have hdr : dg = '\r' := by simpa using hcontra
      rw [hdr] at hdig
      exact absurd hdig (by decide)
    · rw [show replLine n l = l from by unfold replLine; rw [if_neg hp]]
      intro hcontra
      exact hcr (lines_sub d l hl '\r' (mem_of_getLast?_eq l '\r' hcontra))

theorem emf_fixDoc (n : Nat) (d : List Char) (hne : linesRust d ≠ [])
    (hlast : (linesRust d).getLast? ≠ some []) (hcr : ('\r' : Char) ∉ d) :
    extract_metadata_field (fixDoc n d) nameKey = extract_metadata_field d nameKey := by
  unfold extract_metadata_field
  rw [linesRust_fixDoc n d hne hlast hcr]
  exact emfGo_map_repl n (linesRust d) false

theorem dropWhile_natChars (n : Nat) : (natChars n).dropWhile isWS = natChars n := by
  obtain ⟨c, t, hct, hcd⟩ := natChars_head_digit n
  rw [hct, List.dropWhile_cons, if_neg (by simp [isDigit_not_ws c hcd])]

theorem trimC_space_natChars (n : Nat) : trimC (' ' :: natChars n) = natChars n := by
  rw [trimC_eq_trimEnd_dropWhile]
  rw [show (' ' :: natChars n).dropWhile isWS = (natChars n).dropWhile isWS from by
    rw [List.dropWhile_cons, if_pos (by decide)]]
  rw [dropWhile_natChars]
  apply trimEnd_noop
  intro c hc
  obtain ⟨dg, hdg, hdig⟩ := natChars_getLast_digit n
  rw [hdg] at hc
  have h2 : dg = c := by injection hc
  rw [← h2]
  exact isDigit_not_ws dg hdig

theorem stripPrefixOpt_replicasSpace (n : Nat) :
    stripPrefixOpt replicasLit (replicasSpaceLit ++ natChars n)
      = some (' ' :: natChars n) := by
  have hp : replicasLit.isPrefixOf (replicasSpaceLit ++ natChars n) = true :=
    List.isPrefixOf_iff_prefix.mpr ⟨' ' :: natChars n, rfl⟩
  unfold stripPrefixOpt
  rw [if_pos hp]
  congr 1

theorem replicasLineVal_replLine (n : Nat) (hn : n < 4294967296) (l : List Char)
    (h : replicasPrefixed l = true) : replicasLineVal (replLine n l) = some n := by
  unfold replicasLineVal
  rw [replLine_trim n l h]
  rw [stripPrefixOpt_replicasSpace n]
  show parseU32 (trimC (' ' :: natChars n)) = some n
  rw [trimC_space_natChars]
  exact parseU32_natChars n hn

theorem replicasLineVal_isSome_prefixed (l : List Char)
    (h : (replicasLineVal l).isSome = true) : replicasPrefixed l = true := by
  unfold replicasLineVal at h
  by_cases hp : replicasLit.isPrefixOf (trimC l) = true
  · exact hp
  · unfold stripPrefixOpt at h
    rw [if_neg hp] at h
    simp at h

theorem extract_replicas_isSome_fixDoc (n : Nat) (hn : n < 4294967296) (d : List Char)
    (hne : linesRust d ≠ []) (hlast : (linesRust d).getLast? ≠ some [])
    (hcr : ('\r' : Char) ∉ d) (h : (extract_replicas d).isSome = true) :
    (extract_replicas (fixDoc n d)).isSome = true := by
  unfold extract_replicas at h ⊢
  rw [linesRust_fixDoc n d hne hlast hcr]
  rw [List.findSome?_map]
  simp only [List.findSome?_isSome_iff] at h ⊢
  obtain ⟨l, hl, hsome⟩ := h
  refine ⟨l, hl, ?_⟩
  have hp := replicasLineVal_isSome_prefixed l hsome
  show (replicasLineVal (replLine n l)).isSome = true
  rw [replicasLineVal_replLine n hn l hp]
  rfl

theorem matched_lines_ne_nil (label d : List Char) (hm : matchesDoc label d = true) :
    linesRust d ≠ [] := by
  intro he
  unfold matchesDoc at hm
  rw [Bool.and_eq_true] at hm
  have h2 := hm.2
  unfold extract_replicas at h2
  rw [he] at h2
  simp at h2

theorem matchesDoc_fixDoc (n : Nat) (hn : n < 4294967296) (label d : List Char)
    (hlast : (linesRust d).getLast? ≠ some []) (hcr : ('\r' : Char) ∉ d)
    (hm : matchesDoc label d = true) : matchesDoc label (fixDoc n d) = true := by
  have hne := matched_lines_ne_nil label d hm
  unfold matchesDoc at hm ⊢
  rw [Bool.and_eq_true] at hm ⊢
  refine ⟨?_, ?_⟩
  · rw [emf_fixDoc n d hne hlast hcr]
    exact hm.1
  · exact extract_replicas_isSome_fixDoc n hn d hne hlast hcr hm.2

theorem fixDoc_idem (n : Nat) (d : List Char) (hne : linesRust d ≠ [])
    (hlast : (linesRust d).getLast? ≠ some []) (hcr : ('\r' : Char) ∉ d) :
    fixDoc n (fixDoc n d) = fixDoc n d := by
  rw [show fixDoc n (fixDoc n d)
      = joinNl ((linesRust (fixDoc n d)).map (replLine n)) from rfl]
  rw [linesRust_fixDoc n d hne hlast hcr]
  rw [List.map_map]
  rw [show fixDoc n d = joinNl ((linesRust d).map (replLine n)) from rfl]
  congr 1
  apply List.map_congr_left
  intro l _
  exact replLine_idem n l

/-! ### Claim C8 -/
/-- C8 counterexample: the patch rewrites EVERY line of the matched document
whose trimmed text starts with `replicas:` — here the second such line,
`  replicas: 4 # inner`, is replaced wholesale by `  replicas: 5` (its
comment destroyed), so more than "only the value of the matched document's
`replicas:` line" changes and another line of the file is not byte-for-byte
preserved. -/
theorem c8_counterexample :
    patch_replicas_in_file "f.yaml" c8Content "api" 5
      = .ok "metadata:\n  name: api\nreplicas: 5\n  replicas: 5" ∧
    ("metadata:\n  name: api\nreplicas: 5\n  replicas: 5" : String)
      ≠ "metadata:\n  name: api\nreplicas: 5\n  replicas: 4 # inner" := by
  exact ⟨by decide, by decide⟩

/-- C8 (amended): a successful patch rewrites, in every matched document,
every line whose trimmed text starts with `replicas:`, replacing the whole
remainder after the preserved indentation with `replicas: <n>`; all other
lines are carried over unchanged (the per-document `lines().join("\n")`
round trip only normalizes line terminators); documents that do not match
are byte-identical. When no document matches, the operation fails with the
error naming the label and the file, and nothing is written. -/
theorem c8_theorem (fp content label : String) (n : Nat) :
    (patch_replicas_in_file fp content label n
        = .error ("\x27" ++ label ++ "\x27 with replicas not found in " ++ fp)
      ↔ (splitSep content.data).all (fun d => !(matchesDoc label.data d)) = true) ∧
    (∀ out : String, patch_replicas_in_file fp content label n = .ok out →
      out.data = joinSep ((splitSep content.data).map
        (fun d => if matchesDoc label.data d then fixDoc n d else d))) ∧
    (∀ d : List Char, matchesDoc label.data d = true →
      fixDoc n d = joinNl ((linesRust d).map (replLine n))) ∧
    (∀ l : List Char, replicasPrefixed l = false → replLine n l = l) ∧
    (∀ l : List Char, replicasPrefixed l = true →
      replLine n l = l.takeWhile isWS ++ replicasSpaceLit ++ natChars n) := by
  refine ⟨?_, ?_, ?_, ?_, ?_⟩
  · unfold patch_replicas_in_file patchCore
    by_cases h : (splitSep content.data).any (matchesDoc label.data) = true
    · rw [if_pos h]
      constructor
      · intro hcontra
        simp at hcontra
      · intro hall
        rw [List.all_eq_true] at hall
        rw [List.any_eq_true] at h
        obtain ⟨d, hd, hmd⟩ := h
        have hcd := hall d hd
        rw [hmd] at hcd
        exact absurd hcd (by simp)
    · rw [if_neg h]
      constructor
      · intro _
        rw [List.all_eq_true]
        intro d hd
        have h2 : (splitSep content.data).any (matchesDoc label.data) = false :=
          Bool.eq_false_iff.mpr h
        rw [List.any_eq_false] at h2
        simp [h2 d hd]
      · intro _
        rfl
  · intro out hout
    unfold patch_replicas_in_file patchCore at hout
    by_cases h : (splitSep content.data).any (matchesDoc label.data) = true
    · rw [if_pos h] at hout
      have hout2 : String.mk (joinSep ((splitSep content.data).map
          (fun d => if matchesDoc label.data d then fixDoc n d else d))) = out :=
        Except.ok.inj hout
      rw [← hout2]
    · rw [if_neg h] at hout
      simp at hout
  · intro d _
    rfl
  · intro l h
    unfold replLine
    rw [h]
    simp
  · intro l h
    unfold replLine
    rw [h]
    simp

/-- C8 witness: the amended theorem applied at a file with no matching
document — the patch fails with the descriptive error. -/
theorem c8_witness :
    patch_replicas_in_file "f.yaml" "kind: Deployment" "api" 3
      = .error ("\x27" ++ "api" ++ "\x27 with replicas not found in " ++ "f.yaml") := by
  have h := c8_theorem "f.yaml" "kind: Deployment" "api" 3
  exact h.1.mpr (by decide)

/-- C7 counterexample: the replica patch is NOT idempotent for every content.
The per-document `lines().join("\n")` round trip drops a trailing empty
line, so a matched document ending in two newlines loses one of them on the
first application and the other on the second: the second application does
not leave the file byte-identical to the first result (even though the
target value `1` already equals the stored value). -/
theorem c7_counterexample :
    patch_replicas_in_file "f.yaml"
      "kind: Deployment\nmetadata:\n  name: api\nreplicas: 1\n\n" "api" 1
      = .ok "kind: Deployment\nmetadata:\n  name: api\nreplicas: 1\n" ∧
    patch_replicas_in_file "f.yaml"
      "kind: Deployment\nmetadata:\n  name: api\nreplicas: 1\n" "api" 1
      = .ok "kind: Deployment\nmetadata:\n  name: api\nreplicas: 1" ∧
    ("kind: Deployment\nmetadata:\n  name: api\nreplicas: 1" : String)
      ≠ "kind: Deployment\nmetadata:\n  name: api\nreplicas: 1\n" :=
  ⟨by decide, by decide, by decide⟩

/-- C7 (amended): the replica patch IS idempotent on contents where the
line round trip is lossless: if the target value fits in `u32`, the content
has no carriage returns, and no matched document ends in a trailing empty
line, then a successful patch is a fixed point — patching the written
result again (under any file path) returns it unchanged. -/
theorem c7_theorem (fp fp2 content label : String) (n : Nat) (out : String)
    (hn : n < 4294967296)
    (hcr : ('\r' : Char) ∉ content.data)
    (hlast : ∀ d ∈ splitSep content.data, matchesDoc label.data d = true →
      (linesRust d).getLast? ≠ some [])
    (h : patch_replicas_in_file fp content label n = .ok out) :
    patch_replicas_in_file fp2 out label n = .ok out := by
  unfold patch_replicas_in_file patchCore at h
  by_cases hany : (splitSep content.data).any (matchesDoc label.data) = true
  · rw [if_pos hany] at h
    have hout : String.mk (joinSep ((splitSep content.data).map
        (fun d => if matchesDoc label.data d then fixDoc n d else d))) = out :=
      Except.ok.inj h
    have houtdata : out.data = joinSep ((splitSep content.data).map
        (fun d => if matchesDoc label.data d then fixDoc n d else d)) := by
      rw [← hout]
    have hsplit : splitSep out.data = (splitSep content.data).map
        (fun d => if matchesDoc label.data d then fixDoc n d else d) := by
      rw [houtdata]
      apply splitSep_join
      · intro hmap
        exact splitSep_ne_nil content.data (List.map_eq_nil_iff.mp hmap)
      · intro p hp
        obtain ⟨d, hd, he⟩ := List.mem_map.mp hp
        rw [← he]
        by_cases hm : matchesDoc label.data d = true
        · rw [if_pos hm]
          exact noSep_fixDoc n d (splitSep_no_sep content.data d hd)
        · rw [if_neg hm]
          exact splitSep_no_sep content.data d hd
    have hany2 : ((splitSep content.data).map
        (fun d => if matchesDoc label.data d then fixDoc n d else d)).any
          (matchesDoc label.data) = true := by
      rw [List.any_eq_true] at hany ⊢
      obtain ⟨d, hd, hmd⟩ := hany
      have hGd : (if matchesDoc label.data d then fixDoc n d else d) = fixDoc n d := by
        rw [if_pos hmd]
      refine ⟨fixDoc n d, ?_, matchesDoc_fixDoc n hn label.data d (hlast d hd hmd)
        (fun hin => hcr (mem_of_mem_splitSep hd hin)) hmd⟩
      rw [← hGd]
      exact List.mem_map_of_mem _ hd
    have hPG : (((splitSep content.data).map
          (fun d => if matchesDoc label.data d then fixDoc n d else d)).map
          (fun d => if matchesDoc label.data d then fixDoc n d else d))
        = (splitSep content.data).map
          (fun d => if matchesDoc label.data d then fixDoc n d else d) := by
      rw [List.map_map]
      apply List.map_congr_left
      intro d hd
      show (if matchesDoc label.data (if matchesDoc label.data d then fixDoc n d else d)
            then fixDoc n (if matchesDoc label.data d then fixDoc n d else d)
            else (if matchesDoc label.data d then fixDoc n d else d))
          = (if matchesDoc label.data d then fixDoc n d else d)
      by_cases hm : matchesDoc label.data d = true
      · have h1 : (if matchesDoc label.data d then fixDoc n d else d) = fixDoc n d := by
          rw [if_pos hm]
        rw [h1]
        have hmd2 := matchesDoc_fixDoc n hn label.data d (hlast d hd hm)
          (fun hin => hcr (mem_of_mem_splitSep hd hin)) hm
        rw [if_pos hmd2]
        exact fixDoc_idem n d (matched_lines_ne_nil label.data d hm) (hlast d hd hm)
          (fun hin => hcr (mem_of_mem_splitSep hd hin))
      · have h1 : (if matchesDoc label.data d then fixDoc n d else d) = d := by
          rw [if_neg hm]
        rw [h1, if_neg hm]
    unfold patch_replicas_in_file patchCore
    rw [hsplit, if_pos hany2, hPG, ← houtdata]
  · rw [if_neg hany] at h
    simp at h

/-- C7 witness: the amended idempotence theorem applied at a concrete
single-document file — patching the patched result returns it unchanged. -/
theorem c7_witness :
    patch_replicas_in_file "g.yaml"
      "kind: Deployment\nmetadata:\n  name: api\nreplicas: 5" "api" 5
      = .ok "kind: Deployment\nmetadata:\n  name: api\nreplicas: 5" :=
  c7_theorem "f.yaml" "g.yaml" "kind: Deployment\nmetadata:\n  name: api\nreplicas: 2"
    "api" 5 "kind: Deployment\nmetadata:\n  name: api\nreplicas: 5"
    (by decide) (by decide) (by decide) (by decide)

end Endfield
